import Mathlib

/-!
Verification of the structural JSON diff engine of the devkit repository.

The definitions below are shallow embeddings of `src/utils/jsonDiff.ts`
(`getValueType`, `getAlignedKeys`, `compareJson`, `createNodesForValue`,
`createSpacer`) and of the collapse filter `filterNodes` from
`src/components/DiffViewer.tsx`.  JSON values are the usual recursive
structured values; JavaScript objects are ordered association lists
(insertion order preserved); `undefined` arguments are `Option.none`.
-/

/-- Structured JSON value (the `JsonValue` type of `src/types/diff.ts`).
Objects are ordered key/value lists, arrays are ordered lists. -/
inductive JsonValue where
  | null : JsonValue
  | bool : Bool → JsonValue
  | num : Int → JsonValue
  | str : String → JsonValue
  | obj : List (String × JsonValue) → JsonValue
  | arr : List JsonValue → JsonValue

/-- Result of `getValueType` in the source: 'object' | 'array' | 'primitive'. -/
inductive ValueType where
  | object : ValueType
  | array : ValueType
  | primitive : ValueType
  deriving DecidableEq

/-- `getValueType`: `isPlainObject` ↦ object, `isArray` ↦ array, else primitive. -/
def getValueType : JsonValue → ValueType
  | .obj _ => .object
  | .arr _ => .array
  | _ => .primitive

/-- The `DiffType` enumeration of `src/types/diff.ts`. -/
inductive DiffType where
  | added : DiffType
  | removed : DiffType
  | modified : DiffType
  | unchanged : DiffType
  | spacer : DiffType
  deriving DecidableEq

/-- The `bracketType` field values. -/
inductive BracketType where
  | object : BracketType
  | array : BracketType
  deriving DecidableEq

/-- The `DiffNode` record of `src/types/diff.ts`.  Optional boolean fields of
the TypeScript interface are modelled as `Bool` with `false` for "absent"
(consumers only test truthiness); optional value fields are `Option`.
The `children` field is never populated by the engine and is omitted. -/
structure DiffNode where
  type : DiffType
  key : Option String := none
  path : String
  leftValue : Option JsonValue := none
  rightValue : Option JsonValue := none
  indent : Nat
  isCollapsible : Bool
  isArrayItem : Bool := false
  arrayIndex : Option Nat := none
  isClosingBracket : Bool := false
  bracketType : Option BracketType := none

/-- JavaScript property access `obj[k]` on an association list: the value of
the first binding with key `k`, or `none` (`undefined`). -/
def lookupOpt : List (String × JsonValue) → String → Option JsonValue
  | [], _ => none
  | (k2, v) :: rest, k => if k2 == k then some v else lookupOpt rest k

/-- `getAlignedKeys`: all keys of the left object in their original order,
followed by the right object's keys that are not keys of the left object,
in their right-hand order. -/
def getAlignedKeys (leftObj rightObj : List (String × JsonValue)) : List String :=
  let leftKeys := leftObj.map Prod.fst
  let rightKeys := rightObj.map Prod.fst
  leftKeys ++ rightKeys.filter (fun k => !leftKeys.contains k)

/-- Child path for an object member: `path ? path + "." + k : k`. -/
def childPathKey (path k : String) : String :=
  if path == "" then k else path ++ "." ++ k

/-- Child path for an array item: `path + "[" + i + "]"`. -/
def childPathIndex (path : String) (i : Nat) : String :=
  path ++ "[" ++ toString i ++ "]"

/-- `createSpacer`: a spacer node for alignment. -/
def createSpacer (indent : Nat) : DiffNode :=
  { type := .spacer, path := "", indent := indent, isCollapsible := false }

mutual
/-- Computable size of a JSON value (used only as a termination measure). -/
def jsize : JsonValue → Nat
  | .null => 1
  | .bool _ => 1
  | .num _ => 1
  | .str _ => 1
  | .obj fs => 1 + jsizeF fs
  | .arr xs => 1 + jsizeI xs

/-- Size of an object's field list. -/
def jsizeF : List (String × JsonValue) → Nat
  | [] => 0
  | (_, v) :: rest => 1 + jsize v + jsizeF rest

/-- Size of an array's item list. -/
def jsizeI : List JsonValue → Nat
  | [] => 0
  | v :: rest => 1 + jsize v + jsizeI rest
end

/-- Size of an optional JSON value (`undefined` has size 0). -/
def josize : Option JsonValue → Nat
  | none => 0
  | some v => jsize v

mutual
/-- lodash `isEqual` on JSON values: structural deep equality, order-sensitive
for arrays and order-insensitive (key-lookup based) for objects. -/
def isEqual : JsonValue → JsonValue → Bool
  | .null, .null => true
  | .bool a, .bool b => a == b
  | .num a, .num b => a == b
  | .str a, .str b => a == b
  | .obj lf, .obj rf => lf.length == rf.length && objSubEq lf rf
  | .arr la, .arr ra => la.length == ra.length && arrEq la ra
  | _, _ => false

/-- Every binding of the left list maps, under lookup in the right list, to an
`isEqual` value (the key-by-key half of lodash object equality). -/
def objSubEq : List (String × JsonValue) → List (String × JsonValue) → Bool
  | [], _ => true
  | (k, v) :: rest, rf =>
      (match lookupOpt rf k with
       | some w => isEqual v w
       | none => false) && objSubEq rest rf

/-- Pointwise `isEqual` on the common length of two arrays (combined with the
length check in `isEqual` this is lodash array equality). -/
def arrEq : List JsonValue → List JsonValue → Bool
  | x :: xs, y :: ys => isEqual x y && arrEq xs ys
  | _, _ => true
end

mutual
/-- `createNodesForValue`: the subtree materializer.  Produces the linear
node sequence for one value with one fixed classification; objects emit
open node, one block per key in original order, close node; arrays the
same per index; primitives a single leaf. -/
def createNodesForValue (value : JsonValue) (path : String) (indent : Nat)
    (key : Option String) (diffType : DiffType) (isArrayItem : Bool)
    (arrayIndex : Option Nat) : List DiffNode :=
  match value with
  | .obj fields =>
      { type := diffType, key := key, path := path,
        leftValue := if diffType == .removed then some (.str "\x7b") else none,
        rightValue := if diffType == .added then some (.str "\x7b") else none,
        indent := indent, isCollapsible := true, isArrayItem := isArrayItem,
        arrayIndex := arrayIndex }
      :: (createNodesFields fields path (indent + 1) diffType
          ++ [{ type := diffType, path := path,
                leftValue := if diffType == .removed then some (.str "\x7d") else none,
                rightValue := if diffType == .added then some (.str "\x7d") else none,
                indent := indent, isCollapsible := false,
                isClosingBracket := true, bracketType := some .object }])
  | .arr items =>
      { type := diffType, key := key, path := path,
        leftValue := if diffType == .removed then some (.str "[") else none,
        rightValue := if diffType == .added then some (.str "[") else none,
        indent := indent, isCollapsible := true, isArrayItem := isArrayItem,
        arrayIndex := arrayIndex }
      :: (createNodesItems items path (indent + 1) diffType 0
          ++ [{ type := diffType, path := path,
                leftValue := if diffType == .removed then some (.str "]") else none,
                rightValue := if diffType == .added then some (.str "]") else none,
                indent := indent, isCollapsible := false,
                isClosingBracket := true, bracketType := some .array }])
  | v =>
      [{ type := diffType, key := key, path := path,
         leftValue :=
           if diffType == .removed || diffType == .modified || diffType == .unchanged
           then some v else none,
         rightValue :=
           if diffType == .added || diffType == .modified || diffType == .unchanged
           then some v else none,
         indent := indent, isCollapsible := false, isArrayItem := isArrayItem,
         arrayIndex := arrayIndex }]

/-- The materializer's loop over an object's fields (in original key order). -/
def createNodesFields (fields : List (String × JsonValue)) (path : String)
    (indent : Nat) (diffType : DiffType) : List DiffNode :=
  match fields with
  | [] => []
  | (k, v) :: rest =>
      createNodesForValue v (childPathKey path k) indent (some k) diffType false none
      ++ createNodesFields rest path indent diffType

/-- The materializer's loop over an array's items (by increasing index). -/
def createNodesItems (items : List JsonValue) (path : String) (indent : Nat)
    (diffType : DiffType) (i : Nat) : List DiffNode :=
  match items with
  | [] => []
  | v :: rest =>
      createNodesForValue v (childPathIndex path i) indent none diffType true (some i)
      ++ createNodesItems rest path indent diffType (i + 1)
end

mutual
/-- `compareJson`: the structural comparator.  Case order follows the source:
left-only ⇒ Removed subtree with right spacers; right-only ⇒ Added subtree
with left spacers; deep-equal ⇒ one Unchanged sequence on both sides (the
source clones node objects for the right side, which in a pure model is the
identical list); different runtime types ⇒ two Modified subtrees padded with
spacers to a common length; two objects ⇒ shared braces around a walk of the
aligned keys; two arrays ⇒ shared brackets around an index-aligned walk;
two unequal primitives ⇒ one Modified node per side. -/
def compareJson (leftValue rightValue : Option JsonValue) (path : String)
    (indent : Nat) (key : Option String) (isArrayItem : Bool)
    (arrayIndex : Option Nat) : List DiffNode × List DiffNode :=
  match leftValue, rightValue with
  | some lv, none =>
      let nodes := createNodesForValue lv path indent key .removed isArrayItem arrayIndex
      (nodes, List.replicate nodes.length (createSpacer indent))
  | none, some rv =>
      let nodes := createNodesForValue rv path indent key .added isArrayItem arrayIndex
      (List.replicate nodes.length (createSpacer indent), nodes)
  | some lv, some rv =>
      if isEqual lv rv then
        let nodes := createNodesForValue lv path indent key .unchanged isArrayItem arrayIndex
        (nodes, nodes)
      else if getValueType lv ≠ getValueType rv then
        let ln := createNodesForValue lv path indent key .modified isArrayItem arrayIndex
        let rn := createNodesForValue rv path indent key .modified isArrayItem arrayIndex
        let maxLen := max ln.length rn.length
        (ln ++ List.replicate (maxLen - ln.length) (createSpacer indent),
         rn ++ List.replicate (maxLen - rn.length) (createSpacer indent))
      else
        match lv, rv with
        | .obj lf, .obj rf =>
            let openNode : DiffNode :=
              { type := .unchanged, key := key, path := path,
                leftValue := some (.str "\x7b"), rightValue := some (.str "\x7b"),
                indent := indent, isCollapsible := true, isArrayItem := isArrayItem,
                arrayIndex := arrayIndex }
            let closeNode : DiffNode :=
              { type := .unchanged, path := path,
                leftValue := some (.str "\x7d"), rightValue := some (.str "\x7d"),
                indent := indent, isCollapsible := false,
                isClosingBracket := true, bracketType := some .object }
            let children := compareChildren lf rf (getAlignedKeys lf rf) path (indent + 1)
            (openNode :: (children.1 ++ [closeNode]),
             openNode :: (children.2 ++ [closeNode]))
        | .arr la, .arr ra =>
            let openNode : DiffNode :=
              { type := .unchanged, key := key, path := path,
                leftValue := some (.str "["), rightValue := some (.str "["),
                indent := indent, isCollapsible := true, isArrayItem := isArrayItem,
                arrayIndex := arrayIndex }
            let closeNode : DiffNode :=
              { type := .unchanged, path := path,
                leftValue := some (.str "]"), rightValue := some (.str "]"),
                indent := indent, isCollapsible := false,
                isClosingBracket := true, bracketType := some .array }
            let children := compareItems la ra path (indent + 1) 0
            (openNode :: (children.1 ++ [closeNode]),
             openNode :: (children.2 ++ [closeNode]))
        | lv2, rv2 =>
            ([{ type := .modified, key := key, path := path, leftValue := some lv2,
                indent := indent, isCollapsible := false, isArrayItem := isArrayItem,
                arrayIndex := arrayIndex }],
             [{ type := .modified, key := key, path := path, rightValue := some rv2,
                indent := indent, isCollapsible := false, isArrayItem := isArrayItem,
                arrayIndex := arrayIndex }])
  | none, none => ([], [])
termination_by (josize leftValue + josize rightValue, 0)
decreasing_by
  all_goals simp only [josize, jsize]
  · exact Prod.Lex.left _ _ (by omega)
  · exact Prod.Lex.left _ _ (by omega)

/-- The comparator's `for (const k of alignedKeys)` loop over two objects:
recurse on the two looked-up member values for each aligned key, and
concatenate the resulting left and right sequences positionally. -/
def compareChildren (lf rf : List (String × JsonValue)) (keys : List String)
    (path : String) (indent : Nat) : List DiffNode × List DiffNode :=
  match keys with
  | [] => ([], [])
  | k :: rest =>
      let child := compareJson (lookupOpt lf k) (lookupOpt rf k)
        (childPathKey path k) indent (some k) false none
      let restNodes := compareChildren lf rf rest path indent
      (child.1 ++ restNodes.1, child.2 ++ restNodes.2)
termination_by (jsizeF lf + jsizeF rf + 1, keys.length)
decreasing_by
  · have hb : ∀ (fs : List (String × JsonValue)) (k2 : String),
        josize (lookupOpt fs k2) ≤ jsizeF fs := by
      intro fs k2
      induction fs with
      | nil => simp [lookupOpt, josize]
      | cons hd tl ih =>
        obtain ⟨kk, vv⟩ := hd
        simp only [lookupOpt, jsizeF]
        by_cases h : (kk == k2)
        · simp only [h, ite_true, josize]
          omega
        · simp only [h, Bool.false_eq_true, ite_false]
          omega
    exact Prod.Lex.left _ _ (by
      have h1 := hb lf k
      have h2 := hb rf k
      omega)
  · exact Prod.Lex.right _ (by simp only [List.length_cons]; omega)

/-- The comparator's index loop over two arrays: for each index up to the
longer length, recurse on the two (possibly absent) items at that index. -/
def compareItems (la ra : List JsonValue) (path : String) (indent : Nat)
    (i : Nat) : List DiffNode × List DiffNode :=
  match la, ra with
  | [], [] => ([], [])
  | x :: xs, [] =>
      let child := compareJson (some x) none (childPathIndex path i) indent none true (some i)
      let restNodes := compareItems xs [] path indent (i + 1)
      (child.1 ++ restNodes.1, child.2 ++ restNodes.2)
  | [], y :: ys =>
      let child := compareJson none (some y) (childPathIndex path i) indent none true (some i)
      let restNodes := compareItems [] ys path indent (i + 1)
      (child.1 ++ restNodes.1, child.2 ++ restNodes.2)
  | x :: xs, y :: ys =>
      let child := compareJson (some x) (some y) (childPathIndex path i) indent none true (some i)
      let restNodes := compareItems xs ys path indent (i + 1)
      (child.1 ++ restNodes.1, child.2 ++ restNodes.2)
termination_by (jsizeI la + jsizeI ra + 1, 0)
decreasing_by
  all_goals simp only [josize, jsize, jsizeI]
  all_goals exact Prod.Lex.left _ _ (by omega)
end

/-- `filterNodes` from `DiffViewer.tsx`: drop nodes whose path extends a
collapsed path at a `.` or `[` boundary, and closing-bracket nodes whose own
path is collapsed; keep everything else in order. -/
def filterNodes (collapsedPaths : List String) (nodes : List DiffNode) : List DiffNode :=
  match nodes with
  | [] => []
  | node :: rest =>
      if collapsedPaths.any (fun c =>
          node.path.startsWith (c ++ ".") || node.path.startsWith (c ++ "[")) then
        filterNodes collapsedPaths rest
      else if node.isClosingBracket && collapsedPaths.contains node.path then
        filterNodes collapsedPaths rest
      else
        node :: filterNodes collapsedPaths rest

mutual
/-- The spec's `sizeOf` count: one line per scalar, one per object or array
open, one per closing bracket. -/
def sizeOfV : JsonValue → Nat
  | .obj fs => 2 + sizeOfFields fs
  | .arr xs => 2 + sizeOfItems xs
  | _ => 1

/-- `sizeOfV` summed over an object's members. -/
def sizeOfFields : List (String × JsonValue) → Nat
  | [] => 0
  | (_, v) :: rest => sizeOfV v + sizeOfFields rest

/-- `sizeOfV` summed over an array's items. -/
def sizeOfItems : List JsonValue → Nat
  | [] => 0
  | v :: rest => sizeOfV v + sizeOfItems rest
end

/-- No-duplicate check on a key list (JavaScript object keys are unique). -/
def keysNodup : List String → Bool
  | [] => true
  | k :: rest => !rest.contains k && keysNodup rest

mutual
/-- Well-formed structured value: every object in it has pairwise distinct
keys (always true of parsed JSON, per the spec's data model). -/
def WFV : JsonValue → Bool
  | .obj fs => keysNodup (fs.map Prod.fst) && WFFields fs
  | .arr xs => WFItems xs
  | _ => true

/-- Well-formedness of all member values of an object. -/
def WFFields : List (String × JsonValue) → Bool
  | [] => true
  | (_, v) :: rest => WFV v && WFFields rest

/-- Well-formedness of all items of an array. -/
def WFItems : List JsonValue → Bool
  | [] => true
  | v :: rest => WFV v && WFItems rest
end

/-- Well-formedness of an optional value. -/
def optWF : Option JsonValue → Bool
  | none => true
  | some v => WFV v

mutual
/-- Key-order agreement: every pair of objects at corresponding positions of
the two (possibly absent) values lists its keys in the same order.  This is
the condition under which swapping the comparator's arguments mirrors the
two columns row for row. -/
def sameKeys : Option JsonValue → Option JsonValue → Bool
  | some (.obj lf), some (.obj rf) =>
      (lf.map Prod.fst == rf.map Prod.fst) && sameKeysF lf rf
  | some (.arr la), some (.arr ra) => sameKeysI la ra
  | _, _ => true
termination_by o _ => josize o
decreasing_by
  all_goals simp only [josize, jsize]
  all_goals omega

/-- Positional key-order agreement of two objects' member values. -/
def sameKeysF : List (String × JsonValue) → List (String × JsonValue) → Bool
  | (_, v) :: rest1, (_, w) :: rest2 =>
      sameKeys (some v) (some w) && sameKeysF rest1 rest2
  | _, _ => true
termination_by l _ => jsizeF l
decreasing_by
  all_goals simp only [josize, jsizeF]
  all_goals omega

/-- Positional key-order agreement of two arrays' items. -/
def sameKeysI : List JsonValue → List JsonValue → Bool
  | x :: xs, y :: ys => sameKeys (some x) (some y) && sameKeysI xs ys
  | _, _ => true
termination_by l _ => jsizeI l
decreasing_by
  all_goals simp only [josize, jsizeI]
  all_goals omega
end

/-- Exchange the `Added` and `Removed` classifications, fixing the others. -/
def swapType : DiffType → DiffType
  | .added => .removed
  | .removed => .added
  | t => t

/-- Mirror a node between the two columns: swap its displayed sides and
exchange Added with Removed. -/
def mirrorNode (n : DiffNode) : DiffNode :=
  { n with type := swapType n.type, leftValue := n.rightValue, rightValue := n.leftValue }

/-- The keys of the nodes sitting at nesting depth `d` of a node sequence, in
sequence order (the key sequence a column displays at one depth). -/
def keysAtIndent (d : Nat) (nodes : List DiffNode) : List String :=
  nodes.filterMap (fun n => if n.indent = d then n.key else none)

/-- How a structural (open or close) node distributes its literal marker `m`
over the two columns, keyed by its classification: Removed carries it on the
left side only, Added on the right side only, Modified on neither side,
Unchanged either on both sides or on neither, and no structural node is a
Spacer. -/
def markerSides (n : DiffNode) (m : String) : Prop :=
  (n.type = .removed → n.leftValue = some (.str m) ∧ n.rightValue = none) ∧
  (n.type = .added → n.leftValue = none ∧ n.rightValue = some (.str m)) ∧
  (n.type = .modified → n.leftValue = none ∧ n.rightValue = none) ∧
  (n.type = .spacer → False) ∧
  (n.type = .unchanged →
    (n.leftValue = some (.str m) ∧ n.rightValue = some (.str m)) ∨
    (n.leftValue = none ∧ n.rightValue = none))

/-- A node's displayed values are structural markers distributed according to
its classification: a collapsible node has a marker `"\x7b"` or `"["`, a
closing-bracket node a marker `"\x7d"` or `"]"`, present exactly on the
sides `markerSides` prescribes and carrying no other value. -/
def structuralNodeSpec (n : DiffNode) : Prop :=
  (n.isCollapsible = true →
    ∃ m, (m = "\x7b" ∨ m = "[") ∧ markerSides n m) ∧
  (n.isClosingBracket = true →
    ∃ m, (m = "\x7d" ∨ m = "]") ∧ markerSides n m)

/-! ### Basic facts about sizes and lookups -/

theorem jsize_pos (v : JsonValue) : 1 ≤ jsize v := by
  cases v <;> simp [jsize]

/-- Strong induction on the computable size of a JSON value. -/
theorem jsize_strong_ind (P : JsonValue → Prop)
    (h : ∀ v, (∀ w, jsize w < jsize v → P w) → P v) : ∀ v, P v := by
  have H : ∀ n v, jsize v ≤ n → P v := by
    intro n
    induction n with
    | zero => exact fun v hv => h v (fun w hw => by omega)
    | succ n ih => exact fun v hv => h v (fun w hw => ih w (by omega))
  exact fun v => H (jsize v) v (Nat.le_refl _)

theorem jsize_lt_of_mem_fields : ∀ {fs : List (String × JsonValue)} {k : String}
    {v : JsonValue}, (k, v) ∈ fs → jsize v < jsize (.obj fs) := by
  intro fs
  induction fs with
  | nil => intro k v h; simp at h
  | cons hd tl ih =>
    intro k v h
    obtain ⟨k2, w⟩ := hd
    simp only [jsize, jsizeF] at *
    rcases List.mem_cons.mp h with h | h
    · cases h
      omega
    · have := ih h
      omega

theorem jsize_lt_of_mem_items {v : JsonValue} {xs : List JsonValue} (h : v ∈ xs) :
    jsize v < jsize (.arr xs) := by
  simp only [jsize]
  induction xs with
  | nil => simp at h
  | cons hd tl ih =>
    rcases List.mem_cons.mp h with h | h
    · subst h; simp [jsizeI]; omega
    · have := ih h; simp [jsizeI] at *; omega

theorem lookupOpt_mem {fs : List (String × JsonValue)} {k : String} {v : JsonValue}
    (h : lookupOpt fs k = some v) : (k, v) ∈ fs := by
  induction fs with
  | nil => simp [lookupOpt] at h
  | cons hd tl ih =>
    obtain ⟨k2, w⟩ := hd
    by_cases hk : (k2 == k)
    · simp only [lookupOpt, hk, ite_true, Option.some.injEq] at h
      subst h
      simp [(by simpa using hk : k2 = k)]
    · simp only [lookupOpt, hk, Bool.false_eq_true, ite_false] at h
      exact List.mem_cons_of_mem _ (ih h)

theorem lookupOpt_isSome_iff : ∀ {fs : List (String × JsonValue)} {k : String},
    (lookupOpt fs k).isSome = true ↔ k ∈ fs.map Prod.fst := by
  intro fs
  induction fs with
  | nil => intro k; simp [lookupOpt]
  | cons hd tl ih =>
    intro k
    obtain ⟨k2, w⟩ := hd
    rcases hb : (k2 == k) with _ | _
    · have hne : ¬k2 = k := by simpa using hb
      simp only [lookupOpt, hb, Bool.false_eq_true, ite_false, List.map_cons,
        List.mem_cons, ih]
      constructor
      · exact fun h => Or.inr h
      · rintro (h | h)
        · exact absurd h.symm hne
        · exact h
    · have he : k2 = k := by simpa using hb
      subst he
      simp [lookupOpt]

theorem lookupOpt_eq_none_iff {fs : List (String × JsonValue)} {k : String} :
    lookupOpt fs k = none ↔ ¬k ∈ fs.map Prod.fst := by
  rw [← lookupOpt_isSome_iff]
  cases h : lookupOpt fs k <;> simp [h]

theorem lookupOpt_nodup : ∀ {fs : List (String × JsonValue)} {k : String}
    {v : JsonValue}, keysNodup (fs.map Prod.fst) = true → (k, v) ∈ fs →
    lookupOpt fs k = some v := by
  intro fs
  induction fs with
  | nil => intro k v _ h; simp at h
  | cons hd tl ih =>
    intro k v hn h
    obtain ⟨k2, w⟩ := hd
    simp only [List.map_cons, keysNodup, Bool.and_eq_true, Bool.not_eq_true'] at hn
    have hnm : ∀ x : JsonValue, ¬(k2, x) ∈ tl := by
      have h1 := hn.1
      simpa using h1
    rcases List.mem_cons.mp h with h | h
    · cases h
      simp [lookupOpt]
    · have hk2 : (k2 == k) = false := by
        rcases hb : (k2 == k) with _ | _
        · rfl
        · exfalso
          have hkk : k2 = k := by simpa using hb
          subst hkk
          exact hnm v h
      simp only [lookupOpt, hk2, Bool.false_eq_true, ite_false]
      exact ih hn.2 h

/-! ### The subtree materializer -/

theorem createNodes_length : ∀ (v : JsonValue) (p : String) (d : Nat)
    (k : Option String) (t : DiffType) (ai : Bool) (ix : Option Nat),
    (createNodesForValue v p d k t ai ix).length = sizeOfV v := by
  refine @createNodesForValue.induct
    (fun v p d k t ai ix => (createNodesForValue v p d k t ai ix).length = sizeOfV v)
    (fun xs p d t i => (createNodesItems xs p d t i).length = sizeOfItems xs)
    (fun fs p d t => (createNodesFields fs p d t).length = sizeOfFields fs)
    ?_ ?_ ?_ ?_ ?_ ?_ ?_
  · intro p d k t ai ix fs ih
    simp [createNodesForValue, sizeOfV, ih]
    omega
  · intro p d k t ai ix xs ih
    simp [createNodesForValue, sizeOfV, ih]
    omega
  · intro v p d k t ai ix hobj harr
    cases v with
    | obj a => exact (hobj a rfl).elim
    | arr a => exact (harr a rfl).elim
    | null => simp [createNodesForValue, sizeOfV]
    | bool b => simp [createNodesForValue, sizeOfV]
    | num n => simp [createNodesForValue, sizeOfV]
    | str s => simp [createNodesForValue, sizeOfV]
  · intro p d t
    simp [createNodesFields, sizeOfFields]
  · intro p d t k v rest ih1 ih2
    simp [createNodesFields, sizeOfFields, ih1, ih2]
  · intro p d t i
    simp [createNodesItems, sizeOfItems]
  · intro p d t i v rest ih1 ih2
    simp [createNodesItems, sizeOfItems, ih1, ih2]

theorem createNodesFields_length (fs : List (String × JsonValue)) (p : String)
    (d : Nat) (t : DiffType) :
    (createNodesFields fs p d t).length = sizeOfFields fs := by
  induction fs with
  | nil => simp [createNodesFields, sizeOfFields]
  | cons hd tl ih =>
    obtain ⟨k, v⟩ := hd
    simp [createNodesFields, sizeOfFields, ih, createNodes_length]

theorem createNodesItems_length (xs : List JsonValue) (p : String) (d : Nat)
    (t : DiffType) : ∀ i, (createNodesItems xs p d t i).length = sizeOfItems xs := by
  induction xs with
  | nil => intro i; simp [createNodesItems, sizeOfItems]
  | cons hd tl ih =>
    intro i
    simp [createNodesItems, sizeOfItems, ih, createNodes_length]

theorem createNodes_type : ∀ (v : JsonValue) (p : String) (d : Nat)
    (k : Option String) (t : DiffType) (ai : Bool) (ix : Option Nat),
    ∀ n ∈ createNodesForValue v p d k t ai ix, n.type = t := by
  refine @createNodesForValue.induct
    (fun v p d k t ai ix => ∀ n ∈ createNodesForValue v p d k t ai ix, n.type = t)
    (fun xs p d t i => ∀ n ∈ createNodesItems xs p d t i, n.type = t)
    (fun fs p d t => ∀ n ∈ createNodesFields fs p d t, n.type = t)
    ?_ ?_ ?_ ?_ ?_ ?_ ?_
  · intro p d k t ai ix fs ih n hn
    simp only [createNodesForValue, List.mem_cons, List.mem_append,
      List.mem_singleton] at hn
    rcases hn with hn | hn | hn | hn
    · subst hn; rfl
    · exact ih n hn
    · subst hn; rfl
    · exact absurd hn (List.not_mem_nil n)
  · intro p d k t ai ix xs ih n hn
    simp only [createNodesForValue, List.mem_cons, List.mem_append,
      List.mem_singleton] at hn
    rcases hn with hn | hn | hn | hn
    · subst hn; rfl
    · exact ih n hn
    · subst hn; rfl
    · exact absurd hn (List.not_mem_nil n)
  · intro v p d k t ai ix hobj harr n hn
    cases v with
    | obj a => exact (hobj a rfl).elim
    | arr a => exact (harr a rfl).elim
    | null => simp only [createNodesForValue, List.mem_singleton] at hn; subst hn; rfl
    | bool b => simp only [createNodesForValue, List.mem_singleton] at hn; subst hn; rfl
    | num m => simp only [createNodesForValue, List.mem_singleton] at hn; subst hn; rfl
    | str s => simp only [createNodesForValue, List.mem_singleton] at hn; subst hn; rfl
  · intro p d t n hn
    simp [createNodesFields] at hn
  · intro p d t k v rest ih1 ih2 n hn
    simp only [createNodesFields, List.mem_append] at hn
    rcases hn with hn | hn
    · exact ih1 n hn
    · exact ih2 n hn
  · intro p d t i n hn
    simp [createNodesItems] at hn
  · intro p d t i v rest ih1 ih2 n hn
    simp only [createNodesItems, List.mem_append] at hn
    rcases hn with hn | hn
    · exact ih1 n hn
    · exact ih2 n hn

theorem createNodes_indent_ge : ∀ (v : JsonValue) (p : String) (d : Nat)
    (k : Option String) (t : DiffType) (ai : Bool) (ix : Option Nat),
    ∀ n ∈ createNodesForValue v p d k t ai ix, d ≤ n.indent := by
  refine @createNodesForValue.induct
    (fun v p d k t ai ix => ∀ n ∈ createNodesForValue v p d k t ai ix, d ≤ n.indent)
    (fun xs p d t i => ∀ n ∈ createNodesItems xs p d t i, d ≤ n.indent)
    (fun fs p d t => ∀ n ∈ createNodesFields fs p d t, d ≤ n.indent)
    ?_ ?_ ?_ ?_ ?_ ?_ ?_
  · intro p d k t ai ix fs ih n hn
    simp only [createNodesForValue, List.mem_cons, List.mem_append,
      List.mem_singleton] at hn
    rcases hn with hn | hn | hn | hn
    · subst hn; simp
    · have := ih n hn; omega
    · subst hn; simp
    · exact absurd hn (List.not_mem_nil n)
  · intro p d k t ai ix xs ih n hn
    simp only [createNodesForValue, List.mem_cons, List.mem_append,
      List.mem_singleton] at hn
    rcases hn with hn | hn | hn | hn
    · subst hn; simp
    · have := ih n hn; omega
    · subst hn; simp
    · exact absurd hn (List.not_mem_nil n)
  · intro v p d k t ai ix hobj harr n hn
    cases v with
    | obj a => exact (hobj a rfl).elim
    | arr a => exact (harr a rfl).elim
    | null => simp only [createNodesForValue, List.mem_singleton] at hn; subst hn; simp
    | bool b => simp only [createNodesForValue, List.mem_singleton] at hn; subst hn; simp
    | num m => simp only [createNodesForValue, List.mem_singleton] at hn; subst hn; simp
    | str s => simp only [createNodesForValue, List.mem_singleton] at hn; subst hn; simp
  · intro p d t n hn
    simp [createNodesFields] at hn
  · intro p d t k v rest ih1 ih2 n hn
    simp only [createNodesFields, List.mem_append] at hn
    rcases hn with hn | hn
    · exact ih1 n hn
    · exact ih2 n hn
  · intro p d t i n hn
    simp [createNodesItems] at hn
  · intro p d t i v rest ih1 ih2 n hn
    simp only [createNodesItems, List.mem_append] at hn
    rcases hn with hn | hn
    · exact ih1 n hn
    · exact ih2 n hn

theorem createNodesFields_indent_ge (fs : List (String × JsonValue)) (p : String)
    (d : Nat) (t : DiffType) :
    ∀ n ∈ createNodesFields fs p d t, d ≤ n.indent := by
  induction fs with
  | nil => intro n hn; simp [createNodesFields] at hn
  | cons hd tl ih =>
    obtain ⟨k, v⟩ := hd
    intro n hn
    simp only [createNodesFields, List.mem_append] at hn
    rcases hn with hn | hn
    · exact createNodes_indent_ge v _ d (some k) t false none n hn
    · exact ih n hn

theorem createNodesItems_indent_ge (xs : List JsonValue) (p : String) (d : Nat)
    (t : DiffType) : ∀ i, ∀ n ∈ createNodesItems xs p d t i, d ≤ n.indent := by
  induction xs with
  | nil => intro i n hn; simp [createNodesItems] at hn
  | cons hd tl ih =>
    intro i n hn
    simp only [createNodesItems, List.mem_append] at hn
    rcases hn with hn | hn
    · exact createNodes_indent_ge hd _ d none t true (some i) n hn
    · exact ih (i + 1) n hn

theorem keysAtIndent_eq_nil {d : Nat} {nodes : List DiffNode}
    (h : ∀ n ∈ nodes, ¬n.indent = d) : keysAtIndent d nodes = [] := by
  simp only [keysAtIndent]
  rw [List.filterMap_eq_nil_iff]
  intro n hn
  simp [h n hn]

theorem keysAtIndent_append (d : Nat) (l1 l2 : List DiffNode) :
    keysAtIndent d (l1 ++ l2) = keysAtIndent d l1 ++ keysAtIndent d l2 := by
  simp [keysAtIndent]

theorem keysAtIndent_nil (d : Nat) : keysAtIndent d [] = [] := rfl

theorem keysAtIndent_cons (d : Nat) (n : DiffNode) (rest : List DiffNode) :
    keysAtIndent d (n :: rest) =
      (if n.indent = d then n.key else none).toList ++ keysAtIndent d rest := by
  simp only [keysAtIndent, List.filterMap_cons]
  rcases h : (if n.indent = d then n.key else none) with _ | k2 <;> simp [h]

/-- The materializer shows, at its own depth, exactly its own key. -/
theorem createNodes_keysAt (v : JsonValue) (p : String) (d : Nat)
    (k : Option String) (t : DiffType) (ai : Bool) (ix : Option Nat) :
    keysAtIndent d (createNodesForValue v p d k t ai ix) = k.toList := by
  have hinner : ∀ nodes : List DiffNode, (∀ n ∈ nodes, d + 1 ≤ n.indent) →
      keysAtIndent d nodes = [] := by
    intro nodes h
    exact keysAtIndent_eq_nil (fun n hn => by have := h n hn; omega)
  cases v with
  | obj fs =>
    simp only [createNodesForValue, keysAtIndent_cons, keysAtIndent_append,
      keysAtIndent_nil, hinner _ (createNodesFields_indent_ge fs p (d + 1) t)]
    simp
  | arr xs =>
    simp only [createNodesForValue, keysAtIndent_cons, keysAtIndent_append,
      keysAtIndent_nil, hinner _ (createNodesItems_indent_ge xs p (d + 1) t 0)]
    simp
  | null => cases k <;> simp [createNodesForValue, keysAtIndent]
  | bool b => cases k <;> simp [createNodesForValue, keysAtIndent]
  | num m => cases k <;> simp [createNodesForValue, keysAtIndent]
  | str s => cases k <;> simp [createNodesForValue, keysAtIndent]

/-- The materializer's field walk shows, at its depth, the object's keys in
their original order. -/
theorem createNodesFields_keysAt (fs : List (String × JsonValue)) (p : String)
    (d : Nat) (t : DiffType) :
    keysAtIndent d (createNodesFields fs p d t) = fs.map Prod.fst := by
  induction fs with
  | nil => simp [createNodesFields, keysAtIndent]
  | cons hd tl ih =>
    obtain ⟨k, v⟩ := hd
    simp only [createNodesFields, keysAtIndent_append, ih]
    rw [createNodes_keysAt]
    simp

/-- C10: comparing two absent values yields two empty sequences. -/
theorem compareJson_none_none (p : String) (d : Nat) (k : Option String)
    (ai : Bool) (ix : Option Nat) :
    compareJson none none p d k ai ix = ([], []) := by
  simp [compareJson]

/-! ### C1: the alignment invariant -/

/-- C1: every compare operation returns a left sequence and a right sequence
of equal length, for every pair of (possibly absent) inputs. -/
theorem compareJson_length_eq : ∀ (l r : Option JsonValue) (p : String) (d : Nat)
    (k : Option String) (ai : Bool) (ix : Option Nat),
    (compareJson l r p d k ai ix).1.length = (compareJson l r p d k ai ix).2.length := by
  refine @compareJson.induct
    (fun l r p d k ai ix =>
      (compareJson l r p d k ai ix).1.length = (compareJson l r p d k ai ix).2.length)
    (fun la ra p d i =>
      (compareItems la ra p d i).1.length = (compareItems la ra p d i).2.length)
    (fun lf rf keys p d =>
      (compareChildren lf rf keys p d).1.length = (compareChildren lf rf keys p d).2.length)
    ?_ ?_ ?_ ?_ ?_ ?_ ?_ ?_ ?_ ?_ ?_ ?_ ?_ ?_
  · intro p d k ai ix lv
    simp [compareJson]
  · intro p d k ai ix rv
    simp [compareJson]
  · intro p d k ai ix lv rv hEq
    rw [compareJson.eq_def]
    simp [hEq]
  · intro p d k ai ix lv rv hEq hty
    rw [compareJson.eq_def]
    simp only [hEq, Bool.false_eq_true, ite_false]
    rw [if_pos hty]
    simp only [List.length_append, List.length_replicate]
    omega
  · intro p d k ai ix lf rf hEq hty ih
    rw [compareJson.eq_def]
    simp only [hEq, Bool.false_eq_true, ite_false]
    rw [if_neg hty]
    simp only [List.length_cons, List.length_append, List.length_singleton]
    omega
  · intro p d k ai ix la ra hEq hty ih
    rw [compareJson.eq_def]
    simp only [hEq, Bool.false_eq_true, ite_false]
    rw [if_neg hty]
    simp only [List.length_cons, List.length_append, List.length_singleton]
    omega
  · intro p d k ai ix lv rv hobj harr hEq hty
    rw [compareJson.eq_def]
    cases lv <;> cases rv <;>
      first
      | (exact (hobj _ _ rfl rfl).elim)
      | (exact (harr _ _ rfl rfl).elim)
      | (simp [hEq, hty])
  · intro p d k ai ix
    simp [compareJson]
  · intro p d i
    simp [compareItems]
  · intro p d i x xs ih1 ih2
    simp only [compareItems, List.length_append]
    omega
  · intro p d i y ys ih1 ih2
    simp only [compareItems, List.length_append]
    omega
  · intro p d i x xs y ys ih1 ih2
    simp only [compareItems, List.length_append]
    omega
  · intro lf rf p d
    simp [compareChildren]
  · intro lf rf p d k rest ih1 ih2
    simp only [compareChildren, List.length_append]
    omega

/-! ### Reflexivity of lodash equality on well-formed values, and C2 -/

theorem WFFields_mem : ∀ {fs : List (String × JsonValue)} {k : String}
    {v : JsonValue}, WFFields fs = true → (k, v) ∈ fs → WFV v = true := by
  intro fs
  induction fs with
  | nil => intro k v _ h; simp at h
  | cons hd tl ih =>
    intro k v hwf h
    obtain ⟨k2, w⟩ := hd
    simp only [WFFields, Bool.and_eq_true] at hwf
    rcases List.mem_cons.mp h with h | h
    · cases h; exact hwf.1
    · exact ih hwf.2 h

theorem WFItems_mem : ∀ {xs : List JsonValue} {v : JsonValue},
    WFItems xs = true → v ∈ xs → WFV v = true := by
  intro xs
  induction xs with
  | nil => intro v _ h; simp at h
  | cons hd tl ih =>
    intro v hwf h
    simp only [WFItems, Bool.and_eq_true] at hwf
    rcases List.mem_cons.mp h with h | h
    · subst h; exact hwf.1
    · exact ih hwf.2 h

theorem objSubEq_of_forall : ∀ {lf rf : List (String × JsonValue)},
    (∀ kv ∈ lf, ∃ w, lookupOpt rf kv.1 = some w ∧ isEqual kv.2 w = true) →
    objSubEq lf rf = true := by
  intro lf
  induction lf with
  | nil => intro rf _; simp [objSubEq]
  | cons hd tl ih =>
    intro rf h
    obtain ⟨k, v⟩ := hd
    obtain ⟨w, hw, hvw⟩ := h (k, v) (List.mem_cons_self _ _)
    simp only [objSubEq, hw, hvw, Bool.true_and]
    exact ih (fun kv hkv => h kv (List.mem_cons_of_mem _ hkv))

theorem arrEq_self : ∀ {xs : List JsonValue},
    (∀ x ∈ xs, isEqual x x = true) → arrEq xs xs = true := by
  intro xs
  induction xs with
  | nil => intro _; simp [arrEq]
  | cons hd tl ih =>
    intro h
    simp only [arrEq, Bool.and_eq_true]
    exact ⟨h hd (List.mem_cons_self _ _), ih (fun x hx => h x (List.mem_cons_of_mem _ hx))⟩

/-- lodash `isEqual` is reflexive on well-formed values. -/
theorem isEqual_refl : ∀ (v : JsonValue), WFV v = true → isEqual v v = true := by
  refine jsize_strong_ind (fun v => WFV v = true → isEqual v v = true) ?_
  intro v IH hwf
  cases v with
  | null => simp [isEqual]
  | bool b => simp [isEqual]
  | num n => simp [isEqual]
  | str s => simp [isEqual]
  | obj fs =>
    simp only [WFV, Bool.and_eq_true] at hwf
    simp only [isEqual, Bool.and_eq_true, beq_self_eq_true, true_and]
    refine objSubEq_of_forall (fun kv hkv => ⟨kv.2, ?_, ?_⟩)
    · exact lookupOpt_nodup hwf.1 (by exact hkv)
    · exact IH kv.2 (jsize_lt_of_mem_fields (by exact hkv)) (WFFields_mem hwf.2 hkv)
  | arr xs =>
    simp only [WFV] at hwf
    simp only [isEqual, Bool.and_eq_true, beq_self_eq_true, true_and]
    exact arrEq_self (fun x hx =>
      IH x (jsize_lt_of_mem_items hx) (WFItems_mem hwf hx))

/-- On equal well-formed inputs the comparator takes the deep-equal case and
shares one Unchanged materialization between both columns. -/
theorem compareJson_self (v : JsonValue) (p : String) (d : Nat) (k : Option String)
    (ai : Bool) (ix : Option Nat) (h : WFV v = true) :
    compareJson (some v) (some v) p d k ai ix =
      (createNodesForValue v p d k .unchanged ai ix,
       createNodesForValue v p d k .unchanged ai ix) := by
  rw [compareJson.eq_def]
  simp [isEqual_refl v h]

/-- C2: `compare(V, V)` yields only Unchanged nodes on both sides, and both
sequences have length `sizeOf V` — one line per scalar, per object or array
open, and per closing bracket — which is exactly the materializer's count. -/
theorem compareJson_refl_unchanged (v : JsonValue) (p : String) (d : Nat)
    (k : Option String) (ai : Bool) (ix : Option Nat) (h : WFV v = true) :
    (∀ n ∈ (compareJson (some v) (some v) p d k ai ix).1, n.type = .unchanged) ∧
    (∀ n ∈ (compareJson (some v) (some v) p d k ai ix).2, n.type = .unchanged) ∧
    (compareJson (some v) (some v) p d k ai ix).1.length = sizeOfV v ∧
    (compareJson (some v) (some v) p d k ai ix).2.length = sizeOfV v ∧
    (∀ t, (createNodesForValue v p d k t ai ix).length = sizeOfV v) := by
  rw [compareJson_self v p d k ai ix h]
  refine ⟨?_, ?_, ?_, ?_, ?_⟩
  · exact createNodes_type v p d k .unchanged ai ix
  · exact createNodes_type v p d k .unchanged ai ix
  · exact createNodes_length v p d k .unchanged ai ix
  · exact createNodes_length v p d k .unchanged ai ix
  · exact fun t => createNodes_length v p d k t ai ix

/-- Witness for C2 at the concrete value `{"a": 1, "b": [true]}`. -/
theorem compareJson_refl_unchanged_witness :
    WFV (.obj [("a", .num 1), ("b", .arr [.bool true])]) = true ∧
    ((∀ n ∈ (compareJson (some (.obj [("a", .num 1), ("b", .arr [.bool true])]))
        (some (.obj [("a", .num 1), ("b", .arr [.bool true])])) "" 0 none false none).1,
        n.type = .unchanged) ∧
     (∀ n ∈ (compareJson (some (.obj [("a", .num 1), ("b", .arr [.bool true])]))
        (some (.obj [("a", .num 1), ("b", .arr [.bool true])])) "" 0 none false none).2,
        n.type = .unchanged) ∧
     (compareJson (some (.obj [("a", .num 1), ("b", .arr [.bool true])]))
        (some (.obj [("a", .num 1), ("b", .arr [.bool true])])) "" 0 none false none).1.length =
       sizeOfV (.obj [("a", .num 1), ("b", .arr [.bool true])]) ∧
     (compareJson (some (.obj [("a", .num 1), ("b", .arr [.bool true])]))
        (some (.obj [("a", .num 1), ("b", .arr [.bool true])])) "" 0 none false none).2.length =
       sizeOfV (.obj [("a", .num 1), ("b", .arr [.bool true])]) ∧
     (∀ t, (createNodesForValue (.obj [("a", .num 1), ("b", .arr [.bool true])])
        "" 0 none t false none).length =
       sizeOfV (.obj [("a", .num 1), ("b", .arr [.bool true])]))) :=
  ⟨by simp [WFV, WFFields, WFItems, keysNodup],
   compareJson_refl_unchanged _ "" 0 none false none
     (by simp [WFV, WFFields, WFItems, keysNodup])⟩

/-- C9: the comparator is total — it returns a result on every pair of
(possibly absent) structured values; as a Lean function it is pure. -/
theorem compareJson_total (l r : Option JsonValue) (p : String) (d : Nat)
    (k : Option String) (ai : Bool) (ix : Option Nat) :
    ∃ out, compareJson l r p d k ai ix = out :=
  ⟨_, rfl⟩

/-- C8: the collapse filter keeps the nodes, in order, whose path does not
extend any collapsed path at a `.` or `[` boundary and that are not
closing-bracket nodes whose own path is collapsed. -/
theorem filterNodes_eq_filter (collapsedPaths : List String) (nodes : List DiffNode) :
    filterNodes collapsedPaths nodes = nodes.filter (fun n =>
      !(collapsedPaths.any (fun c =>
          n.path.startsWith (c ++ ".") || n.path.startsWith (c ++ "["))) &&
      !(n.isClosingBracket && collapsedPaths.contains n.path)) := by
  induction nodes with
  | nil => simp [filterNodes]
  | cons n rest ih =>
    rcases h1 : (collapsedPaths.any fun c =>
        n.path.startsWith (c ++ ".") || n.path.startsWith (c ++ "[")) with _ | _
    · rcases h2 : (n.isClosingBracket && collapsedPaths.contains n.path) with _ | _
      · simp only [filterNodes, h1, h2, Bool.false_eq_true, ite_false, ih,
          List.filter_cons, Bool.not_false, Bool.true_and]
        simp
      · simp only [filterNodes, h1, h2, Bool.false_eq_true, Bool.true_eq_false,
          ite_false, ite_true, ih, List.filter_cons, Bool.not_false, Bool.not_true,
          Bool.true_and]
    · simp only [filterNodes, h1, ite_true, ih, List.filter_cons, Bool.not_true,
        Bool.false_and]
      simp

/-- C5: arrays are aligned purely by index: `[1,2,3]` against `[0,1,2,3]`
gives Modified at indices 0, 1, 2 (1 vs 0, 2 vs 1, 3 vs 2) and an Added
fourth entry on the right mirrored by a Spacer on the left. -/
theorem compareJson_positional_arrays :
    (compareJson (some (.arr [.num 1, .num 2, .num 3]))
        (some (.arr [.num 0, .num 1, .num 2, .num 3])) "" 0 none false none).1.map
          DiffNode.type =
        [.unchanged, .modified, .modified, .modified, .spacer, .unchanged] ∧
    (compareJson (some (.arr [.num 1, .num 2, .num 3]))
        (some (.arr [.num 0, .num 1, .num 2, .num 3])) "" 0 none false none).2.map
          DiffNode.type =
        [.unchanged, .modified, .modified, .modified, .added, .unchanged] ∧
    (compareJson (some (.arr [.num 1, .num 2, .num 3]))
        (some (.arr [.num 0, .num 1, .num 2, .num 3])) "" 0 none false none).1.map
          DiffNode.leftValue =
        [some (.str "["), some (.num 1), some (.num 2), some (.num 3), none,
          some (.str "]")] ∧
    (compareJson (some (.arr [.num 1, .num 2, .num 3]))
        (some (.arr [.num 0, .num 1, .num 2, .num 3])) "" 0 none false none).2.map
          DiffNode.rightValue =
        [some (.str "["), some (.num 0), some (.num 1), some (.num 2), some (.num 3),
          some (.str "]")] ∧
    (compareJson (some (.arr [.num 1, .num 2, .num 3]))
        (some (.arr [.num 0, .num 1, .num 2, .num 3])) "" 0 none false none).2.map
          DiffNode.arrayIndex =
        [none, some 0, some 1, some 2, some 3, none] := by
  refine ⟨?_, ?_, ?_, ?_, ?_⟩ <;>
    simp [compareJson, compareItems, createNodesForValue, isEqual, arrEq,
      getValueType, createSpacer, childPathIndex]

/-! ### C7: one-sided materialization -/

theorem createNodes_sided_aux : ∀ (v : JsonValue) (p : String) (d : Nat)
    (k : Option String) (t : DiffType) (ai : Bool) (ix : Option Nat),
    (t = .removed → ∀ n ∈ createNodesForValue v p d k t ai ix,
      n.leftValue.isSome = true ∧ n.rightValue = none) ∧
    (t = .added → ∀ n ∈ createNodesForValue v p d k t ai ix,
      n.leftValue = none ∧ n.rightValue.isSome = true) := by
  refine @createNodesForValue.induct
    (fun v p d k t ai ix =>
      (t = .removed → ∀ n ∈ createNodesForValue v p d k t ai ix,
        n.leftValue.isSome = true ∧ n.rightValue = none) ∧
      (t = .added → ∀ n ∈ createNodesForValue v p d k t ai ix,
        n.leftValue = none ∧ n.rightValue.isSome = true))
    (fun xs p d t i =>
      (t = .removed → ∀ n ∈ createNodesItems xs p d t i,
        n.leftValue.isSome = true ∧ n.rightValue = none) ∧
      (t = .added → ∀ n ∈ createNodesItems xs p d t i,
        n.leftValue = none ∧ n.rightValue.isSome = true))
    (fun fs p d t =>
      (t = .removed → ∀ n ∈ createNodesFields fs p d t,
        n.leftValue.isSome = true ∧ n.rightValue = none) ∧
      (t = .added → ∀ n ∈ createNodesFields fs p d t,
        n.leftValue = none ∧ n.rightValue.isSome = true))
    ?_ ?_ ?_ ?_ ?_ ?_ ?_
  · intro p d k t ai ix fs ih
    constructor <;> rintro rfl <;> intro n hn <;>
      simp only [createNodesForValue, List.mem_cons, List.mem_append,
        List.mem_singleton] at hn <;>
      rcases hn with hn | hn | hn | hn
    · subst hn; simp
    · exact (ih.1 rfl) n hn
    · subst hn; simp
    · exact absurd hn (List.not_mem_nil n)
    · subst hn; simp
    · exact (ih.2 rfl) n hn
    · subst hn; simp
    · exact absurd hn (List.not_mem_nil n)
  · intro p d k t ai ix xs ih
    constructor <;> rintro rfl <;> intro n hn <;>
      simp only [createNodesForValue, List.mem_cons, List.mem_append,
        List.mem_singleton] at hn <;>
      rcases hn with hn | hn | hn | hn
    · subst hn; simp
    · exact (ih.1 rfl) n hn
    · subst hn; simp
    · exact absurd hn (List.not_mem_nil n)
    · subst hn; simp
    · exact (ih.2 rfl) n hn
    · subst hn; simp
    · exact absurd hn (List.not_mem_nil n)
  · intro v p d k t ai ix hobj harr
    constructor <;> rintro rfl <;> intro n hn <;>
      cases v with
      | obj a => exact (hobj a rfl).elim
      | arr a => exact (harr a rfl).elim
      | null =>
        simp only [createNodesForValue, List.mem_singleton] at hn
        subst hn; simp
      | bool b =>
        simp only [createNodesForValue, List.mem_singleton] at hn
        subst hn; simp
      | num m =>
        simp only [createNodesForValue, List.mem_singleton] at hn
        subst hn; simp
      | str s =>
        simp only [createNodesForValue, List.mem_singleton] at hn
        subst hn; simp
  · intro p d t
    constructor <;> rintro rfl <;> intro n hn <;> simp [createNodesFields] at hn
  · intro p d t k v rest ih1 ih2
    constructor <;> rintro rfl <;> intro n hn <;>
      simp only [createNodesFields, List.mem_append] at hn
    · rcases hn with hn | hn
      · exact (ih1.1 rfl) n hn
      · exact (ih2.1 rfl) n hn
    · rcases hn with hn | hn
      · exact (ih1.2 rfl) n hn
      · exact (ih2.2 rfl) n hn
  · intro p d t i
    constructor <;> rintro rfl <;> intro n hn <;> simp [createNodesItems] at hn
  · intro p d t i v rest ih1 ih2
    constructor <;> rintro rfl <;> intro n hn <;>
      simp only [createNodesItems, List.mem_append] at hn
    · rcases hn with hn | hn
      · exact (ih1.1 rfl) n hn
      · exact (ih2.1 rfl) n hn
    · rcases hn with hn | hn
      · exact (ih1.2 rfl) n hn
      · exact (ih2.2 rfl) n hn

/-- C7: a Removed materialization populates only the left value of every
emitted node, an Added materialization only the right value; the other side
is left empty. -/
theorem createNodes_one_sided (v : JsonValue) (p : String) (d : Nat)
    (k : Option String) (ai : Bool) (ix : Option Nat) :
    (∀ n ∈ createNodesForValue v p d k .removed ai ix,
      n.leftValue.isSome = true ∧ n.rightValue = none) ∧
    (∀ n ∈ createNodesForValue v p d k .added ai ix,
      n.leftValue = none ∧ n.rightValue.isSome = true) :=
  ⟨(createNodes_sided_aux v p d k .removed ai ix).1 rfl,
   (createNodes_sided_aux v p d k .added ai ix).2 rfl⟩

/-- Witness for C7 at the removed subtree `{}` and its opening node. -/
theorem createNodes_one_sided_witness :
    ({ type := .removed, key := none, path := "",
       leftValue := some (.str "\x7b"), rightValue := none, indent := 0,
       isCollapsible := true, isArrayItem := false,
       arrayIndex := none } : DiffNode).leftValue.isSome = true ∧
    ({ type := .removed, key := none, path := "",
       leftValue := some (.str "\x7b"), rightValue := none, indent := 0,
       isCollapsible := true, isArrayItem := false,
       arrayIndex := none } : DiffNode).rightValue = none :=
  (createNodes_one_sided (.obj []) "" 0 none false none).1 _
    (by simp [createNodesForValue, createNodesFields])

/-! ### C6: structural marker values -/

theorem createNodes_markers : ∀ (v : JsonValue) (p : String) (d : Nat)
    (k : Option String) (t : DiffType) (ai : Bool) (ix : Option Nat),
    t ≠ .spacer →
    ∀ n ∈ createNodesForValue v p d k t ai ix, structuralNodeSpec n := by
  refine @createNodesForValue.induct
    (fun v p d k t ai ix => t ≠ .spacer →
      ∀ n ∈ createNodesForValue v p d k t ai ix, structuralNodeSpec n)
    (fun xs p d t i => t ≠ .spacer →
      ∀ n ∈ createNodesItems xs p d t i, structuralNodeSpec n)
    (fun fs p d t => t ≠ .spacer →
      ∀ n ∈ createNodesFields fs p d t, structuralNodeSpec n)
    ?_ ?_ ?_ ?_ ?_ ?_ ?_
  · intro p d k t ai ix fs ih ht n hn
    simp only [createNodesForValue, List.mem_cons, List.mem_append,
      List.mem_singleton] at hn
    rcases hn with hn | hn | hn | hn
    · subst hn
      constructor
      · intro _
        refine ⟨"\x7b", Or.inl rfl, ?_⟩
        rcases t <;> first | exact absurd rfl ht | simp [markerSides]
      · intro h
        simp at h
    · exact ih ht n hn
    · subst hn
      constructor
      · intro h
        simp at h
      · intro _
        refine ⟨"\x7d", Or.inl rfl, ?_⟩
        rcases t <;> first | exact absurd rfl ht | simp [markerSides]
    · exact absurd hn (List.not_mem_nil n)
  · intro p d k t ai ix xs ih ht n hn
    simp only [createNodesForValue, List.mem_cons, List.mem_append,
      List.mem_singleton] at hn
    rcases hn with hn | hn | hn | hn
    · subst hn
      constructor
      · intro _
        refine ⟨"[", Or.inr rfl, ?_⟩
        rcases t <;> first | exact absurd rfl ht | simp [markerSides]
      · intro h
        simp at h
    · exact ih ht n hn
    · subst hn
      constructor
      · intro h
        simp at h
      · intro _
        refine ⟨"]", Or.inr rfl, ?_⟩
        rcases t <;> first | exact absurd rfl ht | simp [markerSides]
    · exact absurd hn (List.not_mem_nil n)
  · intro v p d k t ai ix hobj harr ht n hn
    cases v with
    | obj a => exact (hobj a rfl).elim
    | arr a => exact (harr a rfl).elim
    | null =>
      simp only [createNodesForValue, List.mem_singleton] at hn
      subst hn
      constructor <;> intro h <;> simp at h
    | bool b =>
      simp only [createNodesForValue, List.mem_singleton] at hn
      subst hn
      constructor <;> intro h <;> simp at h
    | num m =>
      simp only [createNodesForValue, List.mem_singleton] at hn
      subst hn
      constructor <;> intro h <;> simp at h
    | str s =>
      simp only [createNodesForValue, List.mem_singleton] at hn
      subst hn
      constructor <;> intro h <;> simp at h
  · intro p d t _ n hn
    simp [createNodesFields] at hn
  · intro p d t k v rest ih1 ih2 ht n hn
    simp only [createNodesFields, List.mem_append] at hn
    rcases hn with hn | hn
    · exact ih1 ht n hn
    · exact ih2 ht n hn
  · intro p d t i _ n hn
    simp [createNodesItems] at hn
  · intro p d t i v rest ih1 ih2 ht n hn
    simp only [createNodesItems, List.mem_append] at hn
    rcases hn with hn | hn
    · exact ih1 ht n hn
    · exact ih2 ht n hn

/-- C6 (amended): every collapsible node of a compare output carries, as its
displayed values, only the literal open marker `"\x7b"`/`"["`, and every
closing-bracket node only the literal close marker `"\x7d"`/`"]"`,
distributed over the two columns exactly by classification: Removed
structural nodes carry the marker on the left side only, Added on the right
side only, Modified on neither side, Unchanged on both sides or on neither,
and no structural node is a Spacer.  (So markers are not always present, and
closing brackets do carry values in the Removed/Added and both-sides
Unchanged cases.) -/
theorem structural_markers : ∀ (l r : Option JsonValue) (p : String) (d : Nat)
    (k : Option String) (ai : Bool) (ix : Option Nat),
    ∀ n, (n ∈ (compareJson l r p d k ai ix).1 ∨ n ∈ (compareJson l r p d k ai ix).2) →
      structuralNodeSpec n := by
  have hspacer : ∀ (d2 : Nat), structuralNodeSpec (createSpacer d2) := by
    intro d2
    constructor <;> intro h <;> simp [createSpacer] at h
  refine @compareJson.induct
    (fun l r p d k ai ix => ∀ n,
      (n ∈ (compareJson l r p d k ai ix).1 ∨ n ∈ (compareJson l r p d k ai ix).2) →
      structuralNodeSpec n)
    (fun la ra p d i => ∀ n,
      (n ∈ (compareItems la ra p d i).1 ∨ n ∈ (compareItems la ra p d i).2) →
      structuralNodeSpec n)
    (fun lf rf keys p d => ∀ n,
      (n ∈ (compareChildren lf rf keys p d).1 ∨ n ∈ (compareChildren lf rf keys p d).2) →
      structuralNodeSpec n)
    ?_ ?_ ?_ ?_ ?_ ?_ ?_ ?_ ?_ ?_ ?_ ?_ ?_ ?_
  · intro p d k ai ix lv n hn
    simp only [compareJson, List.mem_replicate] at hn
    rcases hn with hn | hn
    · exact createNodes_markers lv p d k .removed ai ix (by simp) n hn
    · rw [hn.2]
      exact hspacer d
  · intro p d k ai ix rv n hn
    simp only [compareJson, List.mem_replicate] at hn
    rcases hn with hn | hn
    · rw [hn.2]
      exact hspacer d
    · exact createNodes_markers rv p d k .added ai ix (by simp) n hn
  · intro p d k ai ix lv rv hEq n hn
    rw [compareJson.eq_def] at hn
    simp only [hEq, ite_true] at hn
    rcases hn with hn | hn
    · exact createNodes_markers lv p d k .unchanged ai ix (by simp) n hn
    · exact createNodes_markers lv p d k .unchanged ai ix (by simp) n hn
  · intro p d k ai ix lv rv hEq hty n hn
    rw [compareJson.eq_def] at hn
    simp only [hEq, Bool.false_eq_true, ite_false] at hn
    rw [if_pos hty] at hn
    simp only [List.mem_append, List.mem_replicate] at hn
    rcases hn with (hn | hn) | (hn | hn)
    · exact createNodes_markers lv p d k .modified ai ix (by simp) n hn
    · rw [hn.2]
      exact hspacer d
    · exact createNodes_markers rv p d k .modified ai ix (by simp) n hn
    · rw [hn.2]
      exact hspacer d
  · intro p d k ai ix lf rf hEq hty ih n hn
    rw [compareJson.eq_def] at hn
    simp only [hEq, Bool.false_eq_true, ite_false] at hn
    rw [if_neg hty] at hn
    simp only [List.mem_cons, List.mem_append, List.mem_singleton] at hn
    rcases hn with (hn | hn | hn | hn) | (hn | hn | hn | hn)
    · subst hn
      constructor
      · intro _
        exact ⟨"\x7b", Or.inl rfl, by simp [markerSides]⟩
      · intro h
        simp at h
    · exact ih n (Or.inl hn)
    · subst hn
      constructor
      · intro h
        simp at h
      · intro _
        exact ⟨"\x7d", Or.inl rfl, by simp [markerSides]⟩
    · exact absurd hn (List.not_mem_nil n)
    · subst hn
      constructor
      · intro _
        exact ⟨"\x7b", Or.inl rfl, by simp [markerSides]⟩
      · intro h
        simp at h
    · exact ih n (Or.inr hn)
    · subst hn
      constructor
      · intro h
        simp at h
      · intro _
        exact ⟨"\x7d", Or.inl rfl, by simp [markerSides]⟩
    · exact absurd hn (List.not_mem_nil n)
  · intro p d k ai ix la ra hEq hty ih n hn
    rw [compareJson.eq_def] at hn
    simp only [hEq, Bool.false_eq_true, ite_false] at hn
    rw [if_neg hty] at hn
    simp only [List.mem_cons, List.mem_append, List.mem_singleton] at hn
    rcases hn with (hn | hn | hn | hn) | (hn | hn | hn | hn)
    · subst hn
      constructor
      · intro _
        exact ⟨"[", Or.inr rfl, by simp [markerSides]⟩
      · intro h
        simp at h
    · exact ih n (Or.inl hn)
    · subst hn
      constructor
      · intro h
        simp at h
      · intro _
        exact ⟨"]", Or.inr rfl, by simp [markerSides]⟩
    · exact absurd hn (List.not_mem_nil n)
    · subst hn
      constructor
      · intro _
        exact ⟨"[", Or.inr rfl, by simp [markerSides]⟩
      · intro h
        simp at h
    · exact ih n (Or.inr hn)
    · subst hn
      constructor
      · intro h
        simp at h
      · intro _
        exact ⟨"]", Or.inr rfl, by simp [markerSides]⟩
    · exact absurd hn (List.not_mem_nil n)
  · intro p d k ai ix lv rv hobj harr hEq hty n hn
    rw [compareJson.eq_def] at hn
    cases lv <;> cases rv <;>
      first
      | (exact (hobj _ _ rfl rfl).elim)
      | (exact (harr _ _ rfl rfl).elim)
      | (simp only [hEq, Bool.false_eq_true, ite_false] at hn
         rw [if_neg hty] at hn
         rcases hn with hn | hn <;> simp only [List.mem_singleton] at hn <;>
           subst hn <;>
           exact ⟨fun h => by simp at h, fun h => by simp at h⟩)
  · intro p d k ai ix n hn
    rw [compareJson.eq_def] at hn
    rcases hn with hn | hn <;> exact absurd hn (List.not_mem_nil n)
  · intro p d i n hn
    simp only [compareItems] at hn
    rcases hn with hn | hn <;> exact absurd hn (List.not_mem_nil n)
  · intro p d i x xs ih1 ih2 n hn
    simp only [compareItems, List.mem_append] at hn
    rcases hn with (hn | hn) | (hn | hn)
    · exact ih1 n (Or.inl hn)
    · exact ih2 n (Or.inl hn)
    · exact ih1 n (Or.inr hn)
    · exact ih2 n (Or.inr hn)
  · intro p d i y ys ih1 ih2 n hn
    simp only [compareItems, List.mem_append] at hn
    rcases hn with (hn | hn) | (hn | hn)
    · exact ih1 n (Or.inl hn)
    · exact ih2 n (Or.inl hn)
    · exact ih1 n (Or.inr hn)
    · exact ih2 n (Or.inr hn)
  · intro p d i x xs y ys ih1 ih2 n hn
    simp only [compareItems, List.mem_append] at hn
    rcases hn with (hn | hn) | (hn | hn)
    · exact ih1 n (Or.inl hn)
    · exact ih2 n (Or.inl hn)
    · exact ih1 n (Or.inr hn)
    · exact ih2 n (Or.inr hn)
  · intro lf rf p d n hn
    simp only [compareChildren] at hn
    rcases hn with hn | hn <;> exact absurd hn (List.not_mem_nil n)
  · intro lf rf p d k2 rest ih1 ih2 n hn
    simp only [compareChildren, List.mem_append] at hn
    rcases hn with (hn | hn) | (hn | hn)
    · exact ih1 n (Or.inl hn)
    · exact ih2 n (Or.inl hn)
    · exact ih1 n (Or.inr hn)
    · exact ih2 n (Or.inr hn)

/-- C6 counterexample: the claim as stated is false.  Comparing `{}` with
itself yields a collapsible opening node shown on the left whose left value
is absent (no `"\x7b"` marker), and comparing `{}` with an absent right side
yields a closing-bracket node that does carry a value (`"\x7d"`). -/
theorem structural_markers_cex :
    ((compareJson (some (.obj [])) (some (.obj [])) "" 0 none false none).1.any
      (fun n => n.isCollapsible && n.leftValue.isNone)) = true ∧
    ((compareJson (some (.obj [])) none "" 0 none false none).1.any
      (fun n => n.isClosingBracket && n.leftValue.isSome)) = true := by
  constructor
  · rw [compareJson.eq_def]
    simp [isEqual, objSubEq, createNodesForValue, createNodesFields]
  · rw [compareJson.eq_def]
    simp [createNodesForValue, createNodesFields]

/-- Witness for the amended C6 at the shared opening-brace node of
`compare({"a":1}, {"a":2})`. -/
theorem structural_markers_witness :
    structuralNodeSpec
      { type := .unchanged, key := none, path := "",
        leftValue := some (.str "\x7b"), rightValue := some (.str "\x7b"),
        indent := 0, isCollapsible := true, isArrayItem := false,
        arrayIndex := none } :=
  structural_markers (some (.obj [("a", JsonValue.num 1)]))
    (some (.obj [("a", JsonValue.num 2)])) "" 0 none false none _
    (Or.inl (by
      simp [compareJson, compareChildren, createNodesForValue, createNodesFields,
        isEqual, objSubEq, lookupOpt, getAlignedKeys, getValueType, childPathKey,
        createSpacer]))

/-! ### C4: aligned key order -/

theorem compare_indent_ge : ∀ (l r : Option JsonValue) (p : String) (d : Nat)
    (k : Option String) (ai : Bool) (ix : Option Nat),
    ∀ n, (n ∈ (compareJson l r p d k ai ix).1 ∨ n ∈ (compareJson l r p d k ai ix).2) →
      d ≤ n.indent := by
  refine @compareJson.induct
    (fun l r p d k ai ix => ∀ n,
      (n ∈ (compareJson l r p d k ai ix).1 ∨ n ∈ (compareJson l r p d k ai ix).2) →
      d ≤ n.indent)
    (fun la ra p d i => ∀ n,
      (n ∈ (compareItems la ra p d i).1 ∨ n ∈ (compareItems la ra p d i).2) →
      d ≤ n.indent)
    (fun lf rf keys p d => ∀ n,
      (n ∈ (compareChildren lf rf keys p d).1 ∨ n ∈ (compareChildren lf rf keys p d).2) →
      d ≤ n.indent)
    ?_ ?_ ?_ ?_ ?_ ?_ ?_ ?_ ?_ ?_ ?_ ?_ ?_ ?_
  · intro p d k ai ix lv n hn
    simp only [compareJson, List.mem_replicate] at hn
    rcases hn with hn | hn
    · exact createNodes_indent_ge lv p d k .removed ai ix n hn
    · rw [hn.2]
      simp [createSpacer]
  · intro p d k ai ix rv n hn
    simp only [compareJson, List.mem_replicate] at hn
    rcases hn with hn | hn
    · rw [hn.2]
      simp [createSpacer]
    · exact createNodes_indent_ge rv p d k .added ai ix n hn
  · intro p d k ai ix lv rv hEq n hn
    rw [compareJson.eq_def] at hn
    simp only [hEq, ite_true] at hn
    rcases hn with hn | hn
    · exact createNodes_indent_ge lv p d k .unchanged ai ix n hn
    · exact createNodes_indent_ge lv p d k .unchanged ai ix n hn
  · intro p d k ai ix lv rv hEq hty n hn
    rw [compareJson.eq_def] at hn
    simp only [hEq, Bool.false_eq_true, ite_false] at hn
    rw [if_pos hty] at hn
    simp only [List.mem_append, List.mem_replicate] at hn
    rcases hn with (hn | hn) | (hn | hn)
    · exact createNodes_indent_ge lv p d k .modified ai ix n hn
    · rw [hn.2]
      simp [createSpacer]
    · exact createNodes_indent_ge rv p d k .modified ai ix n hn
    · rw [hn.2]
      simp [createSpacer]
  · intro p d k ai ix lf rf hEq hty ih n hn
    rw [compareJson.eq_def] at hn
    simp only [hEq, Bool.false_eq_true, ite_false] at hn
    rw [if_neg hty] at hn
    simp only [List.mem_cons, List.mem_append, List.mem_singleton] at hn
    rcases hn with (hn | hn | hn | hn) | (hn | hn | hn | hn)
    · subst hn; simp
    · have := ih n (Or.inl hn); omega
    · subst hn; simp
    · exact absurd hn (List.not_mem_nil n)
    · subst hn; simp
    · have := ih n (Or.inr hn); omega
    · subst hn; simp
    · exact absurd hn (List.not_mem_nil n)
  · intro p d k ai ix la ra hEq hty ih n hn
    rw [compareJson.eq_def] at hn
    simp only [hEq, Bool.false_eq_true, ite_false] at hn
    rw [if_neg hty] at hn
    simp only [List.mem_cons, List.mem_append, List.mem_singleton] at hn
    rcases hn with (hn | hn | hn | hn) | (hn | hn | hn | hn)
    · subst hn; simp
    · have := ih n (Or.inl hn); omega
    · subst hn; simp
    · exact absurd hn (List.not_mem_nil n)
    · subst hn; simp
    · have := ih n (Or.inr hn); omega
    · subst hn; simp
    · exact absurd hn (List.not_mem_nil n)
  · intro p d k ai ix lv rv hobj harr hEq hty n hn
    rw [compareJson.eq_def] at hn
    cases lv <;> cases rv <;>
      first
      | (exact (hobj _ _ rfl rfl).elim)
      | (exact (harr _ _ rfl rfl).elim)
      | (simp only [hEq, Bool.false_eq_true, ite_false] at hn
         rw [if_neg hty] at hn
         rcases hn with hn | hn <;> simp only [List.mem_singleton] at hn <;>
           subst hn <;> simp)
  · intro p d k ai ix n hn
    rw [compareJson.eq_def] at hn
    rcases hn with hn | hn <;> exact absurd hn (List.not_mem_nil n)
  · intro p d i n hn
    simp only [compareItems] at hn
    rcases hn with hn | hn <;> exact absurd hn (List.not_mem_nil n)
  · intro p d i x xs ih1 ih2 n hn
    simp only [compareItems, List.mem_append] at hn
    rcases hn with (hn | hn) | (hn | hn)
    · exact ih1 n (Or.inl hn)
    · exact ih2 n (Or.inl hn)
    · exact ih1 n (Or.inr hn)
    · exact ih2 n (Or.inr hn)
  · intro p d i y ys ih1 ih2 n hn
    simp only [compareItems, List.mem_append] at hn
    rcases hn with (hn | hn) | (hn | hn)
    · exact ih1 n (Or.inl hn)
    · exact ih2 n (Or.inl hn)
    · exact ih1 n (Or.inr hn)
    · exact ih2 n (Or.inr hn)
  · intro p d i x xs y ys ih1 ih2 n hn
    simp only [compareItems, List.mem_append] at hn
    rcases hn with (hn | hn) | (hn | hn)
    · exact ih1 n (Or.inl hn)
    · exact ih2 n (Or.inl hn)
    · exact ih1 n (Or.inr hn)
    · exact ih2 n (Or.inr hn)
  · intro lf rf p d n hn
    simp only [compareChildren] at hn
    rcases hn with hn | hn <;> exact absurd hn (List.not_mem_nil n)
  · intro lf rf p d k2 rest ih1 ih2 n hn
    simp only [compareChildren, List.mem_append] at hn
    rcases hn with (hn | hn) | (hn | hn)
    · exact ih1 n (Or.inl hn)
    · exact ih2 n (Or.inl hn)
    · exact ih1 n (Or.inr hn)
    · exact ih2 n (Or.inr hn)

theorem compareChildren_indent_ge (lf rf : List (String × JsonValue))
    (keys : List String) (p : String) (d : Nat) :
    ∀ n, (n ∈ (compareChildren lf rf keys p d).1 ∨
          n ∈ (compareChildren lf rf keys p d).2) → d ≤ n.indent := by
  induction keys with
  | nil =>
    intro n hn
    simp only [compareChildren] at hn
    rcases hn with hn | hn <;> exact absurd hn (List.not_mem_nil n)
  | cons k2 rest ih =>
    intro n hn
    simp only [compareChildren, List.mem_append] at hn
    rcases hn with (hn | hn) | (hn | hn)
    · exact compare_indent_ge _ _ _ _ _ _ _ n (Or.inl hn)
    · exact ih n (Or.inl hn)
    · exact compare_indent_ge _ _ _ _ _ _ _ n (Or.inr hn)
    · exact ih n (Or.inr hn)

theorem compareItems_indent_ge_nil (ra : List JsonValue) (p : String) (d : Nat) :
    ∀ i, ∀ n, (n ∈ (compareItems [] ra p d i).1 ∨
          n ∈ (compareItems [] ra p d i).2) → d ≤ n.indent := by
  induction ra with
  | nil =>
    intro i n hn
    simp only [compareItems] at hn
    rcases hn with hn | hn <;> exact absurd hn (List.not_mem_nil n)
  | cons y ys ih =>
    intro i n hn
    simp only [compareItems, List.mem_append] at hn
    rcases hn with (hn | hn) | (hn | hn)
    · exact compare_indent_ge _ _ _ _ _ _ _ n (Or.inl hn)
    · exact ih (i + 1) n (Or.inl hn)
    · exact compare_indent_ge _ _ _ _ _ _ _ n (Or.inr hn)
    · exact ih (i + 1) n (Or.inr hn)

theorem compareItems_indent_ge (la ra : List JsonValue) (p : String) (d : Nat) :
    ∀ i, ∀ n, (n ∈ (compareItems la ra p d i).1 ∨
          n ∈ (compareItems la ra p d i).2) → d ≤ n.indent := by
  have main := compare_indent_ge
  induction la generalizing ra with
  | nil => exact compareItems_indent_ge_nil ra p d
  | cons x xs ih =>
    intro i n hn
    cases ra with
    | nil =>
      simp only [compareItems, List.mem_append] at hn
      rcases hn with (hn | hn) | (hn | hn)
      · exact main _ _ _ _ _ _ _ n (Or.inl hn)
      · exact ih [] (i + 1) n (Or.inl hn)
      · exact main _ _ _ _ _ _ _ n (Or.inr hn)
      · exact ih [] (i + 1) n (Or.inr hn)
    | cons y ys =>
      simp only [compareItems, List.mem_append] at hn
      rcases hn with (hn | hn) | (hn | hn)
      · exact main _ _ _ _ _ _ _ n (Or.inl hn)
      · exact ih ys (i + 1) n (Or.inl hn)
      · exact main _ _ _ _ _ _ _ n (Or.inr hn)
      · exact ih ys (i + 1) n (Or.inr hn)

theorem keysAtIndent_replicate (d m d2 : Nat) :
    keysAtIndent d (List.replicate m (createSpacer d2)) = [] := by
  simp only [keysAtIndent]
  rw [List.filterMap_eq_nil_iff]
  intro n hn
  rw [(List.mem_replicate.mp hn).2]
  simp [createSpacer]

/-- A child comparison shows, at its own depth, its own key on each column on
which its value is present, and nothing on the other column. -/
theorem compareJson_keysAt (l r : Option JsonValue) (p : String) (d : Nat)
    (k : Option String) (ai : Bool) (ix : Option Nat) :
    keysAtIndent d (compareJson l r p d k ai ix).1 =
      (if l.isSome then k.toList else []) ∧
    keysAtIndent d (compareJson l r p d k ai ix).2 =
      (if r.isSome then k.toList else []) := by
  have hup : ∀ nodes : List DiffNode, (∀ n ∈ nodes, d + 1 ≤ n.indent) →
      keysAtIndent d nodes = [] := by
    intro nodes h
    exact keysAtIndent_eq_nil (fun n hn => by have := h n hn; omega)
  cases l with
  | none =>
    cases r with
    | none =>
      rw [compareJson.eq_def]
      simp [keysAtIndent]
    | some rv =>
      rw [compareJson.eq_def]
      constructor
      · simp only [Option.isSome_none, Bool.false_eq_true, ite_false]
        rw [show ((createNodesForValue rv p d k .added ai ix).length) =
          (createNodesForValue rv p d k .added ai ix).length from rfl]
        exact keysAtIndent_replicate d _ d
      · simp only [Option.isSome_some, ite_true]
        exact createNodes_keysAt rv p d k .added ai ix
  | some lv =>
    cases r with
    | none =>
      rw [compareJson.eq_def]
      constructor
      · simp only [Option.isSome_some, ite_true]
        exact createNodes_keysAt lv p d k .removed ai ix
      · simp only [Option.isSome_none, Bool.false_eq_true, ite_false]
        exact keysAtIndent_replicate d _ d
    | some rv =>
      by_cases hEq : isEqual lv rv = true
      · rw [compareJson.eq_def]
        simp only [hEq, ite_true, Option.isSome_some]
        exact ⟨createNodes_keysAt lv p d k .unchanged ai ix,
               createNodes_keysAt lv p d k .unchanged ai ix⟩
      · by_cases hty : getValueType lv ≠ getValueType rv
        · rw [compareJson.eq_def]
          simp only [hEq, Bool.false_eq_true, ite_false]
          rw [if_pos hty]
          constructor
          · simp only [keysAtIndent_append, keysAtIndent_replicate,
              createNodes_keysAt, Option.isSome_some, ite_true, List.append_nil]
          · simp only [keysAtIndent_append, keysAtIndent_replicate,
              createNodes_keysAt, Option.isSome_some, ite_true, List.append_nil]
        · rcases lv with _ | _ | _ | _ | lf | la <;> rcases rv with _ | _ | _ | _ | rf | ra <;>
            solve
            | (exfalso; apply hty; simp [getValueType])
            | (exfalso; apply hEq; simp [isEqual])
            | (rw [compareJson.eq_def]
               simp only [hEq, Bool.false_eq_true, ite_false]
               rw [if_neg hty]
               refine ⟨?_, ?_⟩ <;>
                 simp [keysAtIndent_cons, keysAtIndent_nil])
            | (rw [compareJson.eq_def]
               simp only [hEq, Bool.false_eq_true, ite_false]
               rw [if_neg hty]
               refine ⟨?_, ?_⟩
               · simp only [keysAtIndent_cons, keysAtIndent_append, keysAtIndent_nil]
                 rw [hup _ (fun n hn =>
                   compareChildren_indent_ge _ _ _ _ _ n (Or.inl hn))]
                 simp
               · simp only [keysAtIndent_cons, keysAtIndent_append, keysAtIndent_nil]
                 rw [hup _ (fun n hn =>
                   compareChildren_indent_ge _ _ _ _ _ n (Or.inr hn))]
                 simp)
            | (rw [compareJson.eq_def]
               simp only [hEq, Bool.false_eq_true, ite_false]
               rw [if_neg hty]
               refine ⟨?_, ?_⟩
               · simp only [keysAtIndent_cons, keysAtIndent_append, keysAtIndent_nil]
                 rw [hup _ (fun n hn =>
                   compareItems_indent_ge _ _ _ _ _ n (Or.inl hn))]
                 simp
               · simp only [keysAtIndent_cons, keysAtIndent_append, keysAtIndent_nil]
                 rw [hup _ (fun n hn =>
                   compareItems_indent_ge _ _ _ _ _ n (Or.inr hn))]
                 simp)

/-- The object walk shows, at its depth, exactly the aligned keys whose value
is present on the respective column, in aligned order. -/
theorem compareChildren_keysAt (lf rf : List (String × JsonValue)) (p : String)
    (d : Nat) : ∀ keys : List String,
    keysAtIndent d (compareChildren lf rf keys p d).1 =
      keys.filter (fun k2 => (lookupOpt lf k2).isSome) ∧
    keysAtIndent d (compareChildren lf rf keys p d).2 =
      keys.filter (fun k2 => (lookupOpt rf k2).isSome) := by
  intro keys
  induction keys with
  | nil => simp [compareChildren, keysAtIndent]
  | cons k2 rest ih =>
    simp only [compareChildren, keysAtIndent_append, List.filter_cons]
    constructor
    · rw [(compareJson_keysAt (lookupOpt lf k2) (lookupOpt rf k2)
        (childPathKey p k2) d (some k2) false none).1, ih.1]
      cases hx : lookupOpt lf k2 <;> simp [hx]
    · rw [(compareJson_keysAt (lookupOpt lf k2) (lookupOpt rf k2)
        (childPathKey p k2) d (some k2) false none).2, ih.2]
      cases hx : lookupOpt rf k2 <;> simp [hx]

theorem keysNodup_iff : ∀ {l : List String}, keysNodup l = true ↔ l.Nodup := by
  intro l
  induction l with
  | nil => simp [keysNodup]
  | cons k rest ih =>
    simp [keysNodup, List.nodup_cons, ih]

theorem objSubEq_forall_mp : ∀ {lf rf : List (String × JsonValue)},
    objSubEq lf rf = true →
    ∀ kv ∈ lf, ∃ w, lookupOpt rf kv.1 = some w ∧ isEqual kv.2 w = true := by
  intro lf
  induction lf with
  | nil => intro rf _ kv hkv; simp at hkv
  | cons hd tl ih =>
    intro rf h kv hkv
    obtain ⟨k, v⟩ := hd
    simp only [objSubEq, Bool.and_eq_true] at h
    rcases List.mem_cons.mp hkv with hkv | hkv
    · subst hkv
      rcases hx : lookupOpt rf k with _ | w
      · rw [hx] at h
        simp at h
      · rw [hx] at h
        exact ⟨w, rfl, h.1⟩
    · exact ih h.2 kv hkv

theorem getAlignedKeys_def (lf rf : List (String × JsonValue)) :
    getAlignedKeys lf rf =
      lf.map Prod.fst ++
        (rf.map Prod.fst).filter (fun k2 => !(lf.map Prod.fst).contains k2) := rfl

/-- C4: when both inputs are objects, the children are walked in the aligned
key order — all of the left object's keys in their original order followed by
the right-only keys in their right-hand order.  The key sequence emitted on
the left column equals the left object's original key order (in particular
for identical key sets in different orders), and the right column shows the
aligned order restricted to the keys the right object has. -/
theorem compareJson_aligned_key_order (lf rf : List (String × JsonValue))
    (p : String) (d : Nat) (k : Option String) (ai : Bool) (ix : Option Nat)
    (hln : (lf.map Prod.fst).Nodup) :
    getAlignedKeys lf rf =
      lf.map Prod.fst ++
        (rf.map Prod.fst).filter (fun k2 => !(lf.map Prod.fst).contains k2) ∧
    keysAtIndent (d + 1)
        (compareJson (some (.obj lf)) (some (.obj rf)) p d k ai ix).1 =
      lf.map Prod.fst ∧
    keysAtIndent (d + 1)
        (compareJson (some (.obj lf)) (some (.obj rf)) p d k ai ix).2 =
      (getAlignedKeys lf rf).filter (fun k2 => (lookupOpt rf k2).isSome) := by
  have hdd : ¬(d = d + 1) := by omega
  refine ⟨rfl, ?_⟩
  by_cases hEq : isEqual (.obj lf) (.obj rf) = true
  · have hEq2 := hEq
    simp only [isEqual, Bool.and_eq_true, beq_iff_eq] at hEq2
    have hsub : ∀ k2 ∈ lf.map Prod.fst, (lookupOpt rf k2).isSome = true := by
      intro k2 hk2
      rcases List.mem_map.mp hk2 with ⟨⟨k3, v⟩, hm, rfl⟩
      obtain ⟨w, hw, _⟩ := objSubEq_forall_mp hEq2.2 (k3, v) hm
      simp [hw]
    have hsubkeys : lf.map Prod.fst ⊆ rf.map Prod.fst := fun k2 hk2 =>
      lookupOpt_isSome_iff.mp (hsub k2 hk2)
    have hperm : (lf.map Prod.fst).Perm (rf.map Prod.fst) :=
      (hln.subperm hsubkeys).perm_of_length_le (by simp [hEq2.1])
    have hrfonly : (rf.map Prod.fst).filter
        (fun k2 => !(lf.map Prod.fst).contains k2) = [] := by
      rw [List.filter_eq_nil_iff]
      intro k2 hk2
      simp [hperm.mem_iff.mpr hk2]
    have hr : (getAlignedKeys lf rf).filter (fun k2 => (lookupOpt rf k2).isSome) =
        lf.map Prod.fst := by
      rw [getAlignedKeys_def, hrfonly, List.append_nil, List.filter_eq_self.mpr hsub]
    rw [compareJson.eq_def]
    simp only [hEq, ite_true]
    constructor
    · simp only [createNodesForValue, keysAtIndent_cons, keysAtIndent_append,
        keysAtIndent_nil, createNodesFields_keysAt]
      simp [hdd]
    · rw [hr]
      simp only [createNodesForValue, keysAtIndent_cons, keysAtIndent_append,
        keysAtIndent_nil, createNodesFields_keysAt]
      simp [hdd]
  · have hty : ¬(getValueType (.obj lf) ≠ getValueType (.obj rf)) := by
      simp [getValueType]
    rw [compareJson.eq_def]
    simp only [hEq, Bool.false_eq_true, ite_false]
    rw [if_neg hty]
    constructor
    · simp only [keysAtIndent_cons, keysAtIndent_append, keysAtIndent_nil,
        (compareChildren_keysAt lf rf p (d + 1) (getAlignedKeys lf rf)).1]
      have hl : (getAlignedKeys lf rf).filter
          (fun k2 => (lookupOpt lf k2).isSome) = lf.map Prod.fst := by
        rw [getAlignedKeys_def, List.filter_append]
        rw [List.filter_eq_self.mpr (fun k2 hk2 => lookupOpt_isSome_iff.mpr hk2)]
        rw [show ((rf.map Prod.fst).filter
            (fun k2 => !(lf.map Prod.fst).contains k2)).filter
            (fun k2 => (lookupOpt lf k2).isSome) = [] from ?_, List.append_nil]
        rw [List.filter_eq_nil_iff]
        intro k2 hk2
        have hk3 := List.mem_filter.mp hk2
        have : ¬k2 ∈ lf.map Prod.fst := by
          have h4 := hk3.2
          simp at h4
          intro hmem
          rcases List.mem_map.mp hmem with ⟨⟨k5, v⟩, hm, rfl⟩
          exact h4 v hm
        rw [lookupOpt_eq_none_iff.mpr this]
        simp
      rw [hl]
      simp [hdd]
    · simp only [keysAtIndent_cons, keysAtIndent_append, keysAtIndent_nil,
        (compareChildren_keysAt lf rf p (d + 1) (getAlignedKeys lf rf)).2]
      simp [hdd]

/-- Witness for C4 with two objects carrying the same keys in different
orders: `{"b":1, "a":2}` against `{"a":2, "b":1}`. -/
theorem compareJson_aligned_key_order_witness :
    (List.map Prod.fst
        ([("b", JsonValue.num 1), ("a", JsonValue.num 2)])).Nodup ∧
    (getAlignedKeys [("b", JsonValue.num 1), ("a", JsonValue.num 2)]
        [("a", JsonValue.num 2), ("b", JsonValue.num 1)] =
      List.map Prod.fst ([("b", JsonValue.num 1), ("a", JsonValue.num 2)]) ++
        (List.map Prod.fst ([("a", JsonValue.num 2), ("b", JsonValue.num 1)])).filter
          (fun k2 => !(List.map Prod.fst
            ([("b", JsonValue.num 1), ("a", JsonValue.num 2)])).contains k2) ∧
     keysAtIndent 1
        (compareJson (some (.obj [("b", JsonValue.num 1), ("a", JsonValue.num 2)]))
          (some (.obj [("a", JsonValue.num 2), ("b", JsonValue.num 1)]))
          "" 0 none false none).1 =
      List.map Prod.fst ([("b", JsonValue.num 1), ("a", JsonValue.num 2)]) ∧
     keysAtIndent 1
        (compareJson (some (.obj [("b", JsonValue.num 1), ("a", JsonValue.num 2)]))
          (some (.obj [("a", JsonValue.num 2), ("b", JsonValue.num 1)]))
          "" 0 none false none).2 =
      (getAlignedKeys [("b", JsonValue.num 1), ("a", JsonValue.num 2)]
          [("a", JsonValue.num 2), ("b", JsonValue.num 1)]).filter
        (fun k2 => (lookupOpt [("a", JsonValue.num 2), ("b", JsonValue.num 1)] k2).isSome)) :=
  ⟨by simp,
   compareJson_aligned_key_order _ _ "" 0 none false none (by simp)⟩

/-! ### C3: argument-swap symmetry -/

theorem mirrorNode_spacer (d : Nat) : mirrorNode (createSpacer d) = createSpacer d := by
  simp [mirrorNode, createSpacer, swapType]

/-- Mirroring a materialized subtree exchanges the Removed and Added
materializations and fixes the Unchanged and Modified ones. -/
theorem mirror_createNodes : ∀ (v : JsonValue) (p : String) (d : Nat)
    (k : Option String) (t : DiffType) (ai : Bool) (ix : Option Nat),
    (createNodesForValue v p d k t ai ix).map mirrorNode =
      createNodesForValue v p d k (swapType t) ai ix := by
  refine @createNodesForValue.induct
    (fun v p d k t ai ix => (createNodesForValue v p d k t ai ix).map mirrorNode =
      createNodesForValue v p d k (swapType t) ai ix)
    (fun xs p d t i => (createNodesItems xs p d t i).map mirrorNode =
      createNodesItems xs p d (swapType t) i)
    (fun fs p d t => (createNodesFields fs p d t).map mirrorNode =
      createNodesFields fs p d (swapType t))
    ?_ ?_ ?_ ?_ ?_ ?_ ?_
  · intro p d k t ai ix fs ih
    simp only [createNodesForValue, List.map_cons, List.map_append, List.map_cons,
      List.map_nil, ih]
    rcases t <;> simp [mirrorNode, swapType]
  · intro p d k t ai ix xs ih
    simp only [createNodesForValue, List.map_cons, List.map_append, List.map_cons,
      List.map_nil, ih]
    rcases t <;> simp [mirrorNode, swapType]
  · intro v p d k t ai ix hobj harr
    cases v with
    | obj a => exact (hobj a rfl).elim
    | arr a => exact (harr a rfl).elim
    | null => rcases t <;> simp [createNodesForValue, mirrorNode, swapType]
    | bool b => rcases t <;> simp [createNodesForValue, mirrorNode, swapType]
    | num m => rcases t <;> simp [createNodesForValue, mirrorNode, swapType]
    | str s => rcases t <;> simp [createNodesForValue, mirrorNode, swapType]
  · intro p d t
    simp [createNodesFields]
  · intro p d t k v rest ih1 ih2
    simp only [createNodesFields, List.map_append, ih1, ih2]
  · intro p d t i
    simp [createNodesItems]
  · intro p d t i v rest ih1 ih2
    simp only [createNodesItems, List.map_append, ih1, ih2]

theorem sameKeys_symm : ∀ (a b : Option JsonValue),
    sameKeys a b = true → sameKeys b a = true := by
  refine @sameKeys.induct
    (fun a b => sameKeys a b = true → sameKeys b a = true)
    (fun la ra => sameKeysI la ra = true → sameKeysI ra la = true)
    (fun lf rf => sameKeysF lf rf = true → sameKeysF rf lf = true)
    ?_ ?_ ?_ ?_ ?_ ?_ ?_
  · intro lf rf ih h
    simp only [sameKeys, Bool.and_eq_true, beq_iff_eq] at h ⊢
    exact ⟨h.1.symm, ih h.2⟩
  · intro la ra ih h
    simp only [sameKeys] at h ⊢
    exact ih h
  · intro a b hobj harr h
    rcases a with _ | av
    · rcases b with _ | bv
      · simp [sameKeys]
      · cases bv <;> simp [sameKeys]
    · rcases b with _ | bv
      · cases av <;> simp [sameKeys]
      · cases av <;> cases bv <;>
          first
          | exact (hobj _ _ rfl rfl).elim
          | exact (harr _ _ rfl rfl).elim
          | simp [sameKeys]
  · intro x xs y ys ih1 ih2 h
    simp only [sameKeysI, Bool.and_eq_true] at h ⊢
    exact ⟨ih1 h.1, ih2 h.2⟩
  · intro la ra hcons h
    rcases la with _ | ⟨x, xs⟩ <;> rcases ra with _ | ⟨y, ys⟩ <;>
      first
      | exact (hcons _ _ _ _ rfl rfl).elim
      | simp [sameKeysI]
  · intro k1 v rest1 k2 w rest2 ih1 ih2 h
    simp only [sameKeysF, Bool.and_eq_true] at h ⊢
    exact ⟨ih1 h.1, ih2 h.2⟩
  · intro lf rf hcons h
    rcases lf with _ | ⟨⟨k1, v⟩, rest1⟩ <;> rcases rf with _ | ⟨⟨k2, w⟩, rest2⟩ <;>
      first
      | exact (hcons _ _ _ _ _ _ rfl rfl).elim
      | simp [sameKeysF]

theorem sameKeysF_lookup : ∀ (lf rf : List (String × JsonValue)),
    sameKeysF lf rf = true → lf.map Prod.fst = rf.map Prod.fst →
    ∀ k2, sameKeys (lookupOpt lf k2) (lookupOpt rf k2) = true := by
  intro lf
  induction lf with
  | nil =>
    intro rf _ hkeys k2
    cases rf with
    | nil => simp [lookupOpt, sameKeys]
    | cons hd tl => simp at hkeys
  | cons hd tl ih =>
    intro rf hsk hkeys k2
    obtain ⟨k1, v⟩ := hd
    cases rf with
    | nil => simp at hkeys
    | cons hd2 tl2 =>
      obtain ⟨k2b, w⟩ := hd2
      simp only [List.map_cons, List.cons.injEq] at hkeys
      obtain ⟨hk12, htl⟩ := hkeys
      subst hk12
      simp only [sameKeysF, Bool.and_eq_true] at hsk
      by_cases hq : (k1 == k2) = true
      · simp only [lookupOpt, hq, ite_true]
        exact hsk.1
      · simp only [lookupOpt, hq, Bool.false_eq_true, ite_false]
        exact ih tl2 hsk.2 htl k2

theorem optWF_lookupOpt {fs : List (String × JsonValue)} (h : WFFields fs = true)
    (k2 : String) : optWF (lookupOpt fs k2) = true := by
  cases hx : lookupOpt fs k2 with
  | none => simp [optWF]
  | some v =>
    simp only [optWF]
    exact WFFields_mem h (lookupOpt_mem hx)

theorem objSubEq_skip : ∀ {tl : List (String × JsonValue)} {k : String}
    {w : JsonValue} {tr : List (String × JsonValue)},
    ¬k ∈ tl.map Prod.fst → objSubEq tl ((k, w) :: tr) = objSubEq tl tr := by
  intro tl
  induction tl with
  | nil => intro k w tr _; simp [objSubEq]
  | cons hd tl2 ih =>
    intro k w tr hk
    obtain ⟨k1, v⟩ := hd
    simp only [List.map_cons, List.mem_cons] at hk
    push_neg at hk
    have hkk : (k == k1) = false := by
      rcases hb : (k == k1) with _ | _
      · rfl
      · exact absurd (by simpa using hb : k = k1) hk.1
    simp only [objSubEq, lookupOpt, hkk, Bool.false_eq_true, ite_false, ih hk.2]

theorem fieldsEq_aux : ∀ (lf rf : List (String × JsonValue)),
    lf.map Prod.fst = rf.map Prod.fst →
    keysNodup (rf.map Prod.fst) = true →
    objSubEq lf rf = true →
    sameKeysF lf rf = true →
    WFFields lf = true → WFFields rf = true →
    (∀ kv ∈ lf, ∀ w, WFV kv.2 = true → WFV w = true →
      sameKeys (some kv.2) (some w) = true → isEqual kv.2 w = true → kv.2 = w) →
    lf = rf := by
  intro lf
  induction lf with
  | nil =>
    intro rf hkeys _ _ _ _ _ _
    cases rf with
    | nil => rfl
    | cons hd tl => simp at hkeys
  | cons hd tl ih =>
    intro rf hkeys hnod hsub hskf hwl hwr hIH
    obtain ⟨k1, v⟩ := hd
    cases rf with
    | nil => simp at hkeys
    | cons hd2 tr =>
      obtain ⟨k2, w⟩ := hd2
      simp only [List.map_cons, List.cons.injEq] at hkeys
      obtain ⟨hk, htl⟩ := hkeys
      subst hk
      simp only [objSubEq, lookupOpt, beq_self_eq_true, ite_true,
        Bool.and_eq_true] at hsub
      simp only [sameKeysF, Bool.and_eq_true] at hskf
      simp only [WFFields, Bool.and_eq_true] at hwl hwr
      simp only [List.map_cons, keysNodup, Bool.and_eq_true,
        Bool.not_eq_true'] at hnod
      have hvw : v = w :=
        hIH (k1, v) (List.mem_cons_self _ _) w hwl.1 hwr.1 hskf.1 hsub.1
      subst hvw
      have hknotin : ¬k1 ∈ tl.map Prod.fst := by
        rw [htl]
        have h5 := hnod.1
        simpa using h5
      have htail : objSubEq tl tr = true := by
        rw [← objSubEq_skip hknotin]
        exact hsub.2
      rw [ih tr htl hnod.2 htail hskf.2 hwl.2 hwr.2
        (fun kv hkv => hIH kv (List.mem_cons_of_mem _ hkv))]

theorem itemsEq_aux : ∀ (la ra : List JsonValue),
    la.length = ra.length → arrEq la ra = true → sameKeysI la ra = true →
    WFItems la = true → WFItems ra = true →
    (∀ x ∈ la, ∀ y, WFV x = true → WFV y = true →
      sameKeys (some x) (some y) = true → isEqual x y = true → x = y) →
    la = ra := by
  intro la
  induction la with
  | nil =>
    intro ra hlen _ _ _ _ _
    cases ra with
    | nil => rfl
    | cons hd tl => simp at hlen
  | cons x xs ih =>
    intro ra hlen harr hski hwl hwr hIH
    cases ra with
    | nil => simp at hlen
    | cons y ys =>
      simp only [List.length_cons, Nat.add_right_cancel_iff] at hlen
      simp only [arrEq, Bool.and_eq_true] at harr
      simp only [sameKeysI, Bool.and_eq_true] at hski
      simp only [WFItems, Bool.and_eq_true] at hwl hwr
      have hxy : x = y :=
        hIH x (List.mem_cons_self _ _) y hwl.1 hwr.1 hski.1 harr.1
      subst hxy
      rw [ih ys hlen harr.2 hski.2 hwl.2 hwr.2
        (fun z hz => hIH z (List.mem_cons_of_mem _ hz))]

/-- Two well-formed values with the same key orders that lodash deems equal
are equal as values. -/
theorem eq_of_isEqual_sameKeys : ∀ (a : JsonValue), WFV a = true →
    ∀ b, WFV b = true → sameKeys (some a) (some b) = true →
    isEqual a b = true → a = b := by
  refine jsize_strong_ind (fun a => WFV a = true → ∀ b, WFV b = true →
    sameKeys (some a) (some b) = true → isEqual a b = true → a = b) ?_
  intro a IH hwa b hwb hsk heq
  cases a with
  | null =>
    cases b <;> simp only [isEqual] at heq <;> first | rfl | simp at heq
  | bool x =>
    cases b <;> simp only [isEqual, beq_iff_eq] at heq <;>
      first | (rw [heq]) | simp at heq
  | num x =>
    cases b <;> simp only [isEqual, beq_iff_eq] at heq <;>
      first | (rw [heq]) | simp at heq
  | str x =>
    cases b <;> simp only [isEqual, beq_iff_eq] at heq <;>
      first | (rw [heq]) | simp at heq
  | obj lf =>
    cases b with
    | obj rf =>
      simp only [isEqual, Bool.and_eq_true, beq_iff_eq] at heq
      simp only [sameKeys, Bool.and_eq_true, beq_iff_eq] at hsk
      simp only [WFV, Bool.and_eq_true] at hwa hwb
      have hnodr : keysNodup (rf.map Prod.fst) = true := hwb.1
      have : lf = rf := by
        refine fieldsEq_aux lf rf hsk.1 hnodr heq.2 hsk.2 hwa.2 hwb.2 ?_
        intro kv hkv w2 hw1 hw2 hs2 he2
        rcases kv with ⟨kk, vv⟩
        exact IH vv (jsize_lt_of_mem_fields hkv) hw1 w2 hw2 hs2 he2
      rw [this]
    | null => simp [isEqual] at heq
    | bool y => simp [isEqual] at heq
    | num y => simp [isEqual] at heq
    | str y => simp [isEqual] at heq
    | arr ys => simp [isEqual] at heq
  | arr xs =>
    cases b with
    | arr ys =>
      simp only [isEqual, Bool.and_eq_true, beq_iff_eq] at heq
      simp only [sameKeys] at hsk
      simp only [WFV] at hwa hwb
      have : xs = ys := by
        refine itemsEq_aux xs ys heq.1 heq.2 hsk hwa hwb ?_
        intro x hx y hy1 hy2 hs2 he2
        exact IH x (jsize_lt_of_mem_items hx) hy1 y hy2 hs2 he2
      rw [this]
    | null => simp [isEqual] at heq
    | bool y => simp [isEqual] at heq
    | num y => simp [isEqual] at heq
    | str y => simp [isEqual] at heq
    | obj rf => simp [isEqual] at heq

theorem isEqual_false_swap (a b : JsonValue) (hwa : WFV a = true)
    (hwb : WFV b = true) (hsk : sameKeys (some a) (some b) = true)
    (h : isEqual a b = false) : isEqual b a = false := by
  rcases hba : isEqual b a with _ | _
  · rfl
  · exfalso
    have hba2 : b = a :=
      eq_of_isEqual_sameKeys b hwb a hwa (sameKeys_symm _ _ hsk) hba
    subst hba2
    simp [isEqual_refl b hwb] at h

theorem getAlignedKeys_of_keys_sub {lf rf : List (String × JsonValue)}
    (h : ∀ k2 ∈ rf.map Prod.fst, k2 ∈ lf.map Prod.fst) :
    getAlignedKeys lf rf = lf.map Prod.fst := by
  rw [getAlignedKeys_def]
  rw [show (rf.map Prod.fst).filter (fun k2 => !(lf.map Prod.fst).contains k2) = []
    from by
      rw [List.filter_eq_nil_iff]
      intro k2 hk2
      simp [h k2 hk2]]
  exact List.append_nil _

/-- Under well-formedness and key-order agreement between the two inputs,
swapping the comparator's arguments swaps the two columns and mirrors every
node: left and right values are exchanged and Added trades places with
Removed, row for row. -/
theorem compareJson_swap_mirror : ∀ (l r : Option JsonValue) (p : String)
    (d : Nat) (k : Option String) (ai : Bool) (ix : Option Nat),
    optWF l = true → optWF r = true → sameKeys l r = true →
    compareJson r l p d k ai ix =
      ((compareJson l r p d k ai ix).2.map mirrorNode,
       (compareJson l r p d k ai ix).1.map mirrorNode) := by
  refine @compareJson.induct
    (fun l r p d k ai ix => optWF l = true → optWF r = true → sameKeys l r = true →
      compareJson r l p d k ai ix =
        ((compareJson l r p d k ai ix).2.map mirrorNode,
         (compareJson l r p d k ai ix).1.map mirrorNode))
    (fun la ra p d i => WFItems la = true → WFItems ra = true →
      sameKeysI la ra = true →
      compareItems ra la p d i =
        ((compareItems la ra p d i).2.map mirrorNode,
         (compareItems la ra p d i).1.map mirrorNode))
    (fun lf rf keys p d =>
      (∀ k2, optWF (lookupOpt lf k2) = true ∧ optWF (lookupOpt rf k2) = true ∧
        sameKeys (lookupOpt lf k2) (lookupOpt rf k2) = true) →
      compareChildren rf lf keys p d =
        ((compareChildren lf rf keys p d).2.map mirrorNode,
         (compareChildren lf rf keys p d).1.map mirrorNode))
    ?_ ?_ ?_ ?_ ?_ ?_ ?_ ?_ ?_ ?_ ?_ ?_ ?_ ?_
  · intro p d k ai ix lv _ _ _
    simp only [compareJson, List.map_replicate, mirrorNode_spacer, mirror_createNodes,
      swapType]
    simp [createNodes_length]
  · intro p d k ai ix rv _ _ _
    simp only [compareJson, List.map_replicate, mirrorNode_spacer, mirror_createNodes,
      swapType]
    simp [createNodes_length]
  · intro p d k ai ix lv rv hEq h1 h2 h3
    simp only [optWF] at h1 h2
    have hlr : lv = rv := eq_of_isEqual_sameKeys lv h1 rv h2 h3 hEq
    subst hlr
    rw [compareJson.eq_def]
    simp only [hEq, ite_true]
    rw [mirror_createNodes]
    simp [swapType]
  · intro p d k ai ix lv rv hEq hty h1 h2 h3
    simp only [optWF] at h1 h2
    have hEq2 : isEqual lv rv = false := by
      rcases hx : isEqual lv rv with _ | _
      · rfl
      · exact absurd hx hEq
    have hEq3 : isEqual rv lv = false := isEqual_false_swap lv rv h1 h2 h3 hEq2
    simp only [compareJson.eq_def, hEq2, hEq3, Bool.false_eq_true, ite_false]
    rw [if_pos (Ne.symm hty), if_pos hty]
    simp only [List.map_append, List.map_replicate, mirrorNode_spacer,
      mirror_createNodes]
    simp [swapType, createNodes_length, Nat.max_comm]
  · intro p d k ai ix lf rf hEq hty ih h1 h2 h3
    have h1b := h1
    have h2b := h2
    have h3b := h3
    simp only [optWF] at h1 h2
    have hwl := h1
    have hwr := h2
    simp only [WFV, Bool.and_eq_true] at hwl hwr
    simp only [sameKeys, Bool.and_eq_true, beq_iff_eq] at h3
    have hEq2 : isEqual (.obj lf) (.obj rf) = false := by
      rcases hx : isEqual (.obj lf) (.obj rf) with _ | _
      · rfl
      · exact absurd hx hEq
    have hEq3 : isEqual (.obj rf) (.obj lf) = false :=
      isEqual_false_swap _ _ h1 h2 h3b hEq2
    have hty2 : ¬getValueType (.obj rf) ≠ getValueType (.obj lf) := by
      simp [getValueType]
    have haligned1 : getAlignedKeys lf rf = lf.map Prod.fst :=
      getAlignedKeys_of_keys_sub (fun k2 hk2 => h3.1 ▸ hk2)
    have haligned2 : getAlignedKeys rf lf = rf.map Prod.fst :=
      getAlignedKeys_of_keys_sub (fun k2 hk2 => h3.1.symm ▸ hk2)
    have hchild : ∀ k2, optWF (lookupOpt lf k2) = true ∧
        optWF (lookupOpt rf k2) = true ∧
        sameKeys (lookupOpt lf k2) (lookupOpt rf k2) = true := by
      intro k2
      exact ⟨optWF_lookupOpt hwl.2 k2, optWF_lookupOpt hwr.2 k2,
        sameKeysF_lookup lf rf h3.2 h3.1 k2⟩
    have hih := ih hchild
    simp only [compareJson.eq_def, hEq2, hEq3, Bool.false_eq_true, ite_false]
    rw [if_neg hty2, if_neg hty]
    rw [show getAlignedKeys rf lf = getAlignedKeys lf rf from
      haligned2.trans (h3.1.symm.trans haligned1.symm)]
    rw [hih]
    simp [mirrorNode, swapType]
  · intro p d k ai ix la ra hEq hty ih h1 h2 h3
    have h3b := h3
    simp only [optWF, WFV] at h1 h2
    simp only [sameKeys] at h3
    have hEq2 : isEqual (.arr la) (.arr ra) = false := by
      rcases hx : isEqual (.arr la) (.arr ra) with _ | _
      · rfl
      · exact absurd hx hEq
    have hEq3 : isEqual (.arr ra) (.arr la) = false :=
      isEqual_false_swap _ _ (by simpa [WFV] using h1) (by simpa [WFV] using h2)
        h3b hEq2
    have hty2 : ¬getValueType (.arr ra) ≠ getValueType (.arr la) := by
      simp [getValueType]
    have hih := ih h1 h2 h3
    simp only [compareJson.eq_def, hEq2, hEq3, Bool.false_eq_true, ite_false]
    rw [if_neg hty2, if_neg hty]
    rw [hih]
    simp [mirrorNode, swapType]
  · intro p d k ai ix lv rv hobj harr hEq hty h1 h2 h3
    simp only [optWF] at h1 h2
    have hEq2 : isEqual lv rv = false := by
      rcases hx : isEqual lv rv with _ | _
      · rfl
      · exact absurd hx hEq
    have hEq3 : isEqual rv lv = false := isEqual_false_swap lv rv h1 h2 h3 hEq2
    have hty2 : ¬getValueType rv ≠ getValueType lv := fun hh => hty (Ne.symm hh)
    cases lv <;> cases rv <;>
      solve
      | exact (hobj _ _ rfl rfl).elim
      | exact (harr _ _ rfl rfl).elim
      | (exfalso; apply hty; simp [getValueType])
      | (exfalso; apply hEq; simp [isEqual])
      | (simp only [compareJson.eq_def, hEq2, hEq3, Bool.false_eq_true, ite_false]
         rw [if_neg hty2, if_neg hty]
         simp [mirrorNode, swapType])
  · intro p d k ai ix _ _ _
    simp only [compareJson.eq_def]
    simp
  · intro p d i _ _ _
    simp [compareItems]
  · intro p d i x xs ih1 ih2 hwl hwr hsk
    simp only [WFItems, Bool.and_eq_true] at hwl
    have hih1 := ih1 (by simpa [optWF] using hwl.1) (by simp [optWF])
      (by cases x <;> simp [sameKeys])
    have hih2 := ih2 hwl.2 (by simp [WFItems])
      (by rcases xs with _ | _ <;> simp [sameKeysI])
    simp only [compareItems]
    rw [hih1, hih2]
    simp [List.map_append]
  · intro p d i y ys ih1 ih2 hwl hwr hsk
    simp only [WFItems, Bool.and_eq_true] at hwr
    have hih1 := ih1 (by simp [optWF]) (by simpa [optWF] using hwr.1)
      (by cases y <;> simp [sameKeys])
    have hih2 := ih2 (by simp [WFItems]) hwr.2
      (by rcases ys with _ | _ <;> simp [sameKeysI])
    simp only [compareItems]
    rw [hih1, hih2]
    simp [List.map_append]
  · intro p d i x xs y ys ih1 ih2 hwl hwr hsk
    simp only [WFItems, Bool.and_eq_true] at hwl hwr
    simp only [sameKeysI, Bool.and_eq_true] at hsk
    have hih1 := ih1 (by simpa [optWF] using hwl.1) (by simpa [optWF] using hwr.1)
      hsk.1
    have hih2 := ih2 hwl.2 hwr.2 hsk.2
    simp only [compareItems]
    rw [hih1, hih2]
    simp [List.map_append]
  · intro lf rf p d _
    simp [compareChildren]
  · intro lf rf p d k2 rest ih1 ih2 hch
    obtain ⟨ha, hb, hc⟩ := hch k2
    have hih1 := ih1 ha hb hc
    have hih2 := ih2 hch
    simp only [compareChildren]
    rw [hih1, hih2]
    simp [List.map_append]

/-- C3 (amended): swapping the comparator's arguments exchanges the Added and
Removed classifications and mirrors the two columns row for row — the right
column of `compare(B,A)` carries exactly the left column of `compare(A,B)`'s
classifications with Added and Removed exchanged, and symmetrically —
provided both inputs are well-formed (unique object keys) and list their
keys in the same order at every aligned object position.  Without that
key-order agreement the rows can shift, because the aligned key order is
left-biased; see the counterexample. -/
theorem compareJson_swap_classifications (l r : Option JsonValue) (p : String)
    (d : Nat) (k : Option String) (ai : Bool) (ix : Option Nat)
    (h1 : optWF l = true) (h2 : optWF r = true) (h3 : sameKeys l r = true) :
    (compareJson r l p d k ai ix).2.map DiffNode.type =
      ((compareJson l r p d k ai ix).1.map DiffNode.type).map swapType ∧
    (compareJson r l p d k ai ix).1.map DiffNode.type =
      ((compareJson l r p d k ai ix).2.map DiffNode.type).map swapType := by
  have hcomp : ∀ ns : List DiffNode,
      (ns.map mirrorNode).map DiffNode.type = (ns.map DiffNode.type).map swapType := by
    intro ns
    induction ns with
    | nil => simp
    | cons n rest ih => simp [mirrorNode, ih]
  rw [compareJson_swap_mirror l r p d k ai ix h1 h2 h3]
  exact ⟨hcomp _, hcomp _⟩

/-- Witness for the amended C3 at `{"a":1}` against `{"a":2}`. -/
theorem compareJson_swap_classifications_witness :
    (optWF (some (.obj [("a", JsonValue.num 1)])) = true ∧
     optWF (some (.obj [("a", JsonValue.num 2)])) = true ∧
     sameKeys (some (.obj [("a", JsonValue.num 1)]))
       (some (.obj [("a", JsonValue.num 2)])) = true) ∧
    ((compareJson (some (.obj [("a", JsonValue.num 2)]))
        (some (.obj [("a", JsonValue.num 1)])) "" 0 none false none).2.map
          DiffNode.type =
      ((compareJson (some (.obj [("a", JsonValue.num 1)]))
        (some (.obj [("a", JsonValue.num 2)])) "" 0 none false none).1.map
          DiffNode.type).map swapType ∧
     (compareJson (some (.obj [("a", JsonValue.num 2)]))
        (some (.obj [("a", JsonValue.num 1)])) "" 0 none false none).1.map
          DiffNode.type =
      ((compareJson (some (.obj [("a", JsonValue.num 1)]))
        (some (.obj [("a", JsonValue.num 2)])) "" 0 none false none).2.map
          DiffNode.type).map swapType) :=
  ⟨⟨by simp [optWF, WFV, WFFields, keysNodup],
    by simp [optWF, WFV, WFFields, keysNodup],
    by simp [sameKeys, sameKeysF]⟩,
   compareJson_swap_classifications _ _ "" 0 none false none
     (by simp [optWF, WFV, WFFields, keysNodup])
     (by simp [optWF, WFV, WFFields, keysNodup])
     (by simp [sameKeys, sameKeysF])⟩

/-- C3 counterexample: the claim as stated fails when the two objects do not
share a key order.  With A = `{"a":1}` and B = `{"b":2}`, `compare(A,B)`'s
left column reads [Unchanged, Removed, Spacer, Unchanged], whose swap is
[Unchanged, Added, Spacer, Unchanged], while `compare(B,A)`'s right column
reads [Unchanged, Spacer, Added, Unchanged]: the Added entry sits on a
different row. -/
theorem compareJson_swap_positions_cex :
    ¬((compareJson (some (.obj [("b", JsonValue.num 2)]))
        (some (.obj [("a", JsonValue.num 1)])) "" 0 none false none).2.map
          DiffNode.type =
      ((compareJson (some (.obj [("a", JsonValue.num 1)]))
        (some (.obj [("b", JsonValue.num 2)])) "" 0 none false none).1.map
          DiffNode.type).map swapType) := by
  have hAB : (compareJson (some (.obj [("a", JsonValue.num 1)]))
      (some (.obj [("b", JsonValue.num 2)])) "" 0 none false none).1.map
        DiffNode.type = [.unchanged, .removed, .spacer, .unchanged] := by
    simp [compareJson, compareChildren, createNodesForValue, createNodesFields,
      isEqual, objSubEq, lookupOpt, getAlignedKeys, getValueType, createSpacer,
      childPathKey]
  have hBA : (compareJson (some (.obj [("b", JsonValue.num 2)]))
      (some (.obj [("a", JsonValue.num 1)])) "" 0 none false none).2.map
        DiffNode.type = [.unchanged, .spacer, .added, .unchanged] := by
    simp [compareJson, compareChildren, createNodesForValue, createNodesFields,
      isEqual, objSubEq, lookupOpt, getAlignedKeys, getValueType, createSpacer,
      childPathKey]
  rw [hAB, hBA]
  decide
